import Mathlib

set_option maxHeartbeats 1000000
set_option maxRecDepth 4000

/-!
Shallow embedding of src/task.rs (RofiTodo): the todo.txt Task record, its
constructors and setters, the todo.txt parser and serializer, tag
extraction, and the comparator family.  Strings are modelled as `List Char`
(Rust String comparison is byte-lexicographic over UTF-8, which coincides
with codepoint-lexicographic order).  Machine-local "today" values
(Local::now in the source) are passed as explicit `Date` parameters.
-/

namespace RofiTodo

/-- Calendar dates, modelling chrono NaiveDate by its year, month and day. -/
structure Date where
  year : Nat
  month : Nat
  day : Nat
deriving DecidableEq, Repr

/-- Proleptic Gregorian leap year rule, as used by chrono. -/
def isLeap (y : Nat) : Bool := y % 4 == 0 && (y % 100 != 0 || y % 400 == 0)

/-- Number of days of a month, as validated by chrono when parsing a date. -/
def daysInMonth (y m : Nat) : Nat :=
  if m = 2 then (if isLeap y then 29 else 28)
  else if m = 4 ∨ m = 6 ∨ m = 9 ∨ m = 11 then 30
  else 31

/-- Calendar validity plus a four-digit year, the range on which the
"%Y-%m-%d" formatter of chrono emits exactly four year digits. -/
def Date.valid4 (d : Date) : Prop :=
  1 ≤ d.month ∧ d.month ≤ 12 ∧ 1 ≤ d.day ∧ d.day ≤ daysInMonth d.year d.month ∧
    d.year ≤ 9999

instance (d : Date) : Decidable d.valid4 := by
  unfold Date.valid4
  infer_instance

/-- Chronological strict order on dates (NaiveDate comparison). -/
def dateLt (a b : Date) : Bool :=
  a.year < b.year ||
    (a.year == b.year &&
      (a.month < b.month || (a.month == b.month && a.day < b.day)))

/-- Decimal digit character for a value below ten (zero padding digit). -/
def digitChar (n : Nat) : Char :=
  match n with
  | 0 => '0'
  | 1 => '1'
  | 2 => '2'
  | 3 => '3'
  | 4 => '4'
  | 5 => '5'
  | 6 => '6'
  | 7 => '7'
  | 8 => '8'
  | _ => '9'

/-- Numeric value of a decimal digit character. -/
def digitVal (c : Char) : Nat := c.toNat - 48

/-- Two-digit zero-padded decimal rendering, as chrono "%m" and "%d". -/
def fmt2 (n : Nat) : List Char := [digitChar (n / 10 % 10), digitChar (n % 10)]

/-- Four-digit zero-padded decimal rendering, as chrono "%Y" on 0..=9999. -/
def fmt4 (n : Nat) : List Char :=
  [digitChar (n / 1000 % 10), digitChar (n / 100 % 10),
   digitChar (n / 10 % 10), digitChar (n % 10)]

/-- The "%Y-%m-%d" rendering of a date used by set_due and to_todotxt. -/
def formatDate (d : Date) : List Char :=
  fmt4 d.year ++ '-' :: (fmt2 d.month ++ '-' :: fmt2 d.day)

/-- Rust String strict lexicographic order (byte order on UTF-8 equals
codepoint order, so we compare characters). -/
def lexLt : List Char → List Char → Bool
  | [], [] => false
  | [], _ :: _ => true
  | _ :: _, [] => false
  | a :: as, b :: bs => if a = b then lexLt as bs else decide (a < b)

/-- Reflexive closure of `lexLt`, the order used to sort tag lists. -/
def lexLe (a b : List Char) : Bool := !(lexLt b a)

/-- Three-way lexicographic comparison of strings. -/
def lexCmp : List Char → List Char → Ordering
  | [], [] => .eq
  | [], _ :: _ => .lt
  | _ :: _, [] => .gt
  | a :: as, b :: bs => if a = b then lexCmp as bs else if a < b then .lt else .gt

/-- The Task record of src/task.rs.  The HashMap of custom tags is modelled
as an association list with unique keys; its list order stands for the
(implementation-defined) iteration order of the map. -/
structure Task where
  content : List Char
  duedate : Option Date
  completion : Bool
  completion_date : Option Date
  creation_date : Option Date
  priority : Option Char
  project_tags : List (List Char)
  context_tags : List (List Char)
  custom_tags : List (List Char × List Char)
deriving DecidableEq, Repr

/-- HashMap::insert: replace the value at an existing key, else add the
binding (appended, one fixed iteration order of the map model). -/
def insertKV : List (List Char × List Char) → List Char → List Char →
    List (List Char × List Char)
  | [], k, v => [(k, v)]
  | (k0, v0) :: rest, k, v =>
    if k0 = k then (k, v) :: rest else (k0, v0) :: insertKV rest k v

/-- HashMap::remove_entry: drop the binding of a key, if present. -/
def removeKV : List (List Char × List Char) → List Char →
    List (List Char × List Char)
  | [], _ => []
  | (k0, v0) :: rest, k => if k0 = k then rest else (k0, v0) :: removeKV rest k

/-- HashMap::get: look a key up. -/
def lookupKV : List (List Char × List Char) → List Char → Option (List Char)
  | [], _ => none
  | (k0, v0) :: rest, k => if k0 = k then some v0 else lookupKV rest k

/-- Unicode White_Space property: the character class matched by the
Unicode-aware \s (and excluded by \S and [^:\s]) of the regex crate used
by RE_PROJECT_TAGS, RE_CONTEXT_TAGS, RE_ALLTAGS and RE_TAG. -/
def isWS (c : Char) : Bool :=
  (decide (9 ≤ c.toNat) && decide (c.toNat ≤ 13)) || c.toNat == 32 ||
    c.toNat == 0x85 || c.toNat == 0xA0 || c.toNat == 0x1680 ||
    (decide (0x2000 ≤ c.toNat) && decide (c.toNat ≤ 0x200A)) ||
    c.toNat == 0x2028 || c.toNat == 0x2029 || c.toNat == 0x202F ||
    c.toNat == 0x205F || c.toNat == 0x3000

/-- Code-point ranges of the Unicode general category Nd (decimal digit),
from the Unicode character database: the character class matched by the
Unicode-aware \d of the regex crate in the date groups of RE_TASK. -/
def ndRanges : List (Nat × Nat) :=
  [(0x30, 0x39), (0x660, 0x669), (0x6F0, 0x6F9), (0x7C0, 0x7C9),
   (0x966, 0x96F), (0x9E6, 0x9EF), (0xA66, 0xA6F), (0xAE6, 0xAEF),
   (0xB66, 0xB6F), (0xBE6, 0xBEF), (0xC66, 0xC6F), (0xCE6, 0xCEF),
   (0xD66, 0xD6F), (0xDE6, 0xDEF), (0xE50, 0xE59), (0xED0, 0xED9),
   (0xF20, 0xF29), (0x1040, 0x1049), (0x1090, 0x1099), (0x17E0, 0x17E9),
   (0x1810, 0x1819), (0x1946, 0x194F), (0x19D0, 0x19D9), (0x1A80, 0x1A89),
   (0x1A90, 0x1A99), (0x1B50, 0x1B59), (0x1BB0, 0x1BB9), (0x1C40, 0x1C49),
   (0x1C50, 0x1C59), (0xA620, 0xA629), (0xA8D0, 0xA8D9), (0xA900, 0xA909),
   (0xA9D0, 0xA9D9), (0xA9F0, 0xA9F9), (0xAA50, 0xAA59), (0xABF0, 0xABF9),
   (0xFF10, 0xFF19), (0x104A0, 0x104A9), (0x10D30, 0x10D39),
   (0x11066, 0x1106F), (0x110F0, 0x110F9), (0x11136, 0x1113F),
   (0x111D0, 0x111D9), (0x112F0, 0x112F9), (0x11450, 0x11459),
   (0x114D0, 0x114D9), (0x11650, 0x11659), (0x116C0, 0x116C9),
   (0x11730, 0x11739), (0x118E0, 0x118E9), (0x11950, 0x11959),
   (0x11C50, 0x11C59), (0x11D50, 0x11D59), (0x11DA0, 0x11DA9),
   (0x16A60, 0x16A69), (0x16AC0, 0x16AC9), (0x16B50, 0x16B59),
   (0x1D7CE, 0x1D7FF), (0x1E140, 0x1E149), (0x1E2F0, 0x1E2F9),
   (0x1E950, 0x1E959), (0x1FBF0, 0x1FBF9)]

/-- Membership in the Unicode Nd class, the \d of the regex crate. -/
def isNd (c : Char) : Bool :=
  ndRanges.any (fun p => decide (p.1 ≤ c.toNat) && decide (c.toNat ≤ p.2))

/-- Scanner of the RE_PROJECT_TAGS / RE_CONTEXT_TAGS regex: left-to-right
non-overlapping matches. The Boolean records whether the current position
is the start of the string or is preceded by a space character; a match
needs that flag, the marker character, and a nonempty non-whitespace run,
which it consumes together with the marker. The run is accumulated one
character at a time (the `cur` state is the reversed portion of the run
read so far), so that the recursion is structural. -/
def scanSt (sym : Char) : List Char → Option (List Char) → Bool → List (List Char)
  | [], cur, _ =>
    (match cur with
     | some acc => [acc.reverse]
     | none => [])
  | c :: rest, some acc, _ =>
    if isWS c then acc.reverse :: scanSt sym rest none (c == ' ')
    else scanSt sym rest (some (c :: acc)) false
  | c :: rest, none, canStart =>
    if canStart && c == sym &&
        (match rest with
         | r :: _ => !(isWS r)
         | [] => false) then
      scanSt sym rest (some []) false
    else
      scanSt sym rest none (c == ' ')

/-- All tag matches of the content, in match order. -/
def scanTags (sym : Char) (content : List Char) : List (List Char) :=
  scanSt sym content none true

/-- Sorted insertion (ascending with respect to lexLe). -/
def insertSorted (a : List Char) : List (List Char) → List (List Char)
  | [] => [a]
  | b :: rest => if lexLe a b then a :: b :: rest else b :: insertSorted a rest

/-- Stable ascending sort; Vec::sort on strings produces exactly the
ascending reordering (duplicate strings are identical values). -/
def sortTags : List (List Char) → List (List Char)
  | [] => []
  | a :: rest => insertSorted a (sortTags rest)

/-- Vec::dedup: remove consecutive duplicates. -/
def dedupConsec : List (List Char) → List (List Char)
  | [] => []
  | [a] => [a]
  | a :: b :: rest =>
    if a = b then dedupConsec (b :: rest) else a :: dedupConsec (b :: rest)

/-- get_tags_from_capture composed with the tag scan: collect the matches,
sort them and remove duplicates. -/
def extractTagsFrom (sym : Char) (content : List Char) : List (List Char) :=
  dedupConsec (sortTags (scanTags sym content))

/-- set_content: replace the content and re-derive project and context
tags, as Task::set_content and Task::extract_tags. -/
def Task.set_content (t : Task) (content : List Char) : Task :=
  { t with
    content := content
    project_tags := extractTagsFrom '+' content
    context_tags := extractTagsFrom '@' content }

/-- Task::empty. -/
def Task.empty : Task :=
  { content := []
    duedate := none
    completion := false
    completion_date := none
    creation_date := none
    priority := none
    project_tags := []
    context_tags := []
    custom_tags := [] }

/-- Task::new; Local::now is passed in as the `today` parameter. -/
def Task.new (content : List Char) (today : Date) : Task :=
  { Task.empty.set_content content with creation_date := some today }

/-- Task::set_due: set the due date and mirror it into the "due" custom
tag (insert on Some, remove on None). -/
def Task.set_due (t : Task) (date : Option Date) : Task :=
  match date with
  | some d =>
    { t with
      duedate := some d
      custom_tags := insertKV t.custom_tags ("due".toList) (formatDate d) }
  | none =>
    { t with
      duedate := none
      custom_tags := removeKV t.custom_tags ("due".toList) }

/-- Task::new_with_date. -/
def Task.new_with_date (content : List Char) (date : Date) (today : Date) :
    Task :=
  (Task.new content today).set_due (some date)

/-- Task::set_completed; Local::now is the `today` parameter.  Sets the
completion flag and date, and backfills a missing creation date. -/
def Task.set_completed (t : Task) (today : Date) : Task :=
  { t with
    completion := true
    completion_date := some today
    creation_date :=
      match t.creation_date with
      | none => some today
      | some c => some c }

/-- Task::set_not_completed. -/
def Task.set_not_completed (t : Task) : Task :=
  { t with completion := false, completion_date := none }

/-- Completion marker group ("x ")? of RE_TASK: greedy optional prefix. -/
def matchCompletion : List Char → Bool × List Char
  | 'x' :: ' ' :: rest => (true, rest)
  | l => (false, l)

/-- Priority group (\((A..Z)\) )? of RE_TASK: greedy optional prefix. -/
def matchPriority : List Char → Option Char × List Char
  | '(' :: c :: ')' :: ' ' :: rest =>
    if 'A' ≤ c ∧ c ≤ 'Z' then (some c, rest) else (none, '(' :: c :: ')' :: ' ' :: rest)
  | l => (none, l)

/-- Date group (\d{4}-\d{2}-\d{2} )? of RE_TASK: greedy optional prefix,
returning the eleven matched characters (trailing space included) and the
remainder.  Digits are modelled as ASCII digits. -/
def matchDateTok : List Char → Option (List Char × List Char)
  | y1 :: y2 :: y3 :: y4 :: '-' :: m1 :: m2 :: '-' :: d1 :: d2 :: ' ' :: rest =>
    if isNd y1 && isNd y2 && isNd y3 && isNd y4 &&
        isNd m1 && isNd m2 && isNd d1 && isNd d2 then
      some ([y1, y2, y3, y4, '-', m1, m2, '-', d1, d2, ' '], rest)
    else none
  | _ => none

/-- Models chrono NaiveDate::parse_from_str with format "%Y-%m-%d " on the
eleven-character tokens produced by the date group of RE_TASK (four year
digits, two month digits, two day digits, trailing space); chrono accepts
exactly the calendar-valid ones. -/
def chronoParseDateSp (tok : List Char) : Option Date :=
  match tok with
  | [y1, y2, y3, y4, '-', m1, m2, '-', d1, d2, ' '] =>
    if y1.isDigit && y2.isDigit && y3.isDigit && y4.isDigit &&
        m1.isDigit && m2.isDigit && d1.isDigit && d2.isDigit then
      let y := 1000 * digitVal y1 + 100 * digitVal y2 + 10 * digitVal y3 + digitVal y4
      let m := 10 * digitVal m1 + digitVal m2
      let d := 10 * digitVal d1 + digitVal d2
      if 1 ≤ m ∧ m ≤ 12 ∧ 1 ≤ d ∧ d ≤ daysInMonth y m then
        some { year := y, month := m, day := d }
      else none
    else none
  | _ => none

/-- Models chrono NaiveDate::parse_from_str with format "%Y-%m-%d " on a
whitespace-free custom-tag value (the trailing space item of the format
matches zero whitespace characters): it accepts the values produced by the
"%Y-%m-%d" formatter, four year digits, two month digits, two day digits,
calendar-valid. -/
def parseDueStr (v : List Char) : Option Date :=
  match v with
  | [y1, y2, y3, y4, '-', m1, m2, '-', d1, d2] =>
    if y1.isDigit && y2.isDigit && y3.isDigit && y4.isDigit &&
        m1.isDigit && m2.isDigit && d1.isDigit && d2.isDigit then
      let y := 1000 * digitVal y1 + 100 * digitVal y2 + 10 * digitVal y3 + digitVal y4
      let m := 10 * digitVal m1 + digitVal m2
      let d := 10 * digitVal d1 + digitVal d2
      if 1 ≤ m ∧ m ≤ 12 ∧ 1 ≤ d ∧ d ≤ daysInMonth y m then
        some { year := y, month := m, day := d }
      else none
    else none
  | _ => none

/-- Character allowed inside a key or value of a custom tag: the regex
class of characters other than a colon and whitespace. -/
def okTagChar (c : Char) : Bool := c != ':' && !(isWS c)

/-- One space-delimited token of the trailing tag block: it is accepted by
the RE_TAG block pattern exactly when it is key:value with nonempty,
colon-free, whitespace-free key and value. -/
def validKV (t : List Char) : Option (List Char × List Char) :=
  let k := t.takeWhile okTagChar
  match t.dropWhile okTagChar with
  | ':' :: v =>
    if k ≠ [] ∧ v ≠ [] ∧ v.all okTagChar then some (k, v) else none
  | _ => none

/-- Space-separated fields of a string (the `acc` state is the reversed
current field): the tokens between the block separators of RE_ALLTAGS. -/
def splitSp : List Char → List Char → List (List Char)
  | acc, [] => [acc.reverse]
  | acc, c :: rest =>
    if c = ' ' then acc.reverse :: splitSp [] rest else splitSp (c :: acc) rest

/-- Validate every space-separated token as a key:value pair. -/
def mapValidKV : List (List Char) → Option (List (List Char × List Char))
  | [] => some []
  | t :: ts =>
    match validKV t with
    | some kv =>
      match mapValidKV ts with
      | some kvs => some (kv :: kvs)
      | none => none
    | none => none

/-- Does a string decompose completely into one or more trailing tag
blocks, each a space followed by a key:value token?  This is the anchored
suffix pattern of RE_ALLTAGS (the whole repetition must reach the end of
the string, and every space starts a block). -/
def parseBlocks (s : List Char) : Option (List (List Char × List Char)) :=
  match s with
  | ' ' :: rest => mapValidKV (splitSp [] rest)
  | _ => none

/-- Leftmost-match search of RE_ALLTAGS: scan the content left to right for
the first position from which the rest of the string is a nonempty chain of
tag blocks; return the content before that position (the match removed by
replace_all) together with the key:value pairs of the match. -/
def tagSplitGo : List Char → List Char → List Char × List (List Char × List Char)
  | acc, [] => (acc.reverse, [])
  | acc, c :: rest =>
    match parseBlocks (c :: rest) with
    | some kvs => (acc.reverse, kvs)
    | none => tagSplitGo (c :: acc) rest

/-- Content split of from_todotxt: stripped content and trailing custom
tags (empty when RE_ALLTAGS does not match). -/
def tagSplit (content : List Char) : List Char × List (List Char × List Char) :=
  tagSplitGo [] content

/-- Result of Task::from_todotxt: Ok, the Err("malformed task") value, or a
panic of one of the .unwrap() calls on date parsing. -/
inductive ParseResult where
  | ok (t : Task) : ParseResult
  | err (msg : List Char) : ParseResult
  | panicked : ParseResult
deriving DecidableEq, Repr

/-- Content-and-tags phase of from_todotxt: split the trailing tag block
off the content, insert the pairs into the custom tags, set the content
(which re-derives project and context tags), then mirror a parseable "due"
custom tag into the due date. -/
def finishContent (t : Task) (contentStr : List Char) : Task :=
  let split := tagSplit contentStr
  let custom := split.2.foldl (fun m kv => insertKV m kv.1 kv.2) t.custom_tags
  let t1 := Task.set_content { t with custom_tags := custom } split.1
  match lookupKV t1.custom_tags ("due".toList) with
  | some v => { t1 with duedate := parseDueStr v }
  | none => t1

/-- Task::from_todotxt.  The RE_TASK regex is anchored at both ends with a
dot-star content group, so the overall match fails exactly when the input
contains a newline; otherwise the optional completion, priority and two
date groups match greedily in order.  A date token that chrono rejects hits
an .unwrap() in the source, modelled as `panicked`.  Local::now (used by
the internal Task::new call) is the `today` parameter; the date-assignment
branches overwrite or clear the creation date in every case. -/
def from_todotxt (today : Date) (todo : List Char) : ParseResult :=
  if '\n' ∈ todo then .err ("malformed task".toList) else
  let compl := (matchCompletion todo).1
  let r1 := (matchCompletion todo).2
  let prio := (matchPriority r1).1
  let r2 := (matchPriority r1).2
  let task0 := { Task.new [] today with completion := compl, priority := prio }
  match matchDateTok r2 with
  | some (tok1, r3) =>
    match matchDateTok r3 with
    | some (tok2, r4) =>
      match chronoParseDateSp tok2 with
      | none => .panicked
      | some crea =>
        match chronoParseDateSp tok1 with
        | none => .panicked
        | some compd =>
          .ok (finishContent
            { task0 with creation_date := some crea, completion_date := some compd }
            r4)
    | none =>
      match chronoParseDateSp tok1 with
      | none => .panicked
      | some crea =>
        .ok (finishContent { task0 with creation_date := some crea } r3)
  | none =>
    .ok (finishContent
      { task0 with creation_date := none, completion_date := none } r2)

/-- Task::to_todotxt: completion marker, priority, completion date,
creation date, content, then the custom tags in map order. -/
def to_todotxt (t : Task) : List Char :=
  (if t.completion then "x ".toList else []) ++
  (match t.priority with
   | some p => '(' :: p :: ')' :: ' ' :: []
   | none => []) ++
  (match t.completion_date with
   | some d => formatDate d ++ [' ']
   | none => []) ++
  (match t.creation_date with
   | some d => formatDate d ++ [' ']
   | none => []) ++
  t.content ++
  t.custom_tags.foldl (fun acc kv => acc ++ ' ' :: (kv.1 ++ ':' :: kv.2)) []

/-- SortTaskBy of src/task.rs. -/
inductive SortTaskBy where
  | CreationDate
  | Content
  | Priority
  | DueDate

/-- Task::comp_content. -/
def comp_content (a b : Task) : Ordering :=
  if a.content = b.content then .eq
  else if lexLt a.content b.content then .lt
  else .gt

/-- Task::comp_creation_date. -/
def comp_creation_date (a b : Task) : Ordering :=
  match a.creation_date, b.creation_date with
  | some d1, some d2 =>
    if d1 = d2 then comp_content a b
    else if dateLt d1 d2 then .lt else .gt
  | some _, none => .gt
  | none, some _ => .lt
  | none, none => comp_content a b

/-- Task::comp_due_date. -/
def comp_due_date (a b : Task) : Ordering :=
  match a.duedate, b.duedate with
  | some d1, some d2 =>
    if d1 = d2 then comp_content a b
    else if dateLt d1 d2 then .lt else .gt
  | some _, none => .lt
  | none, some _ => .gt
  | none, none => comp_content a b

/-- Task::comp_priority. -/
def comp_priority (a b : Task) : Ordering :=
  match a.priority, b.priority with
  | some p1, some p2 =>
    if p1 = p2 then comp_due_date a b
    else if p1 < p2 then .lt else .gt
  | some _, none => .lt
  | none, some _ => .gt
  | none, none => comp_due_date a b

/-- Task::_comp, dispatch on the sort key. -/
def _comp (a b : Task) (sort : SortTaskBy) : Ordering :=
  match sort with
  | .Content => comp_content a b
  | .CreationDate => comp_creation_date a b
  | .Priority => comp_priority a b
  | .DueDate => comp_due_date a b

/-! Statement support: setter sequences and side conditions used by the
claims about the specification. -/

/-- One setter call of the Task API; set_completed carries the Local::now
date observed during the call. -/
inductive Act where
  | setContent (c : List Char)
  | setDue (d : Option Date)
  | setCompleted (today : Date)
  | setNotCompleted

/-- Apply one setter. -/
def applyAct (t : Task) : Act → Task
  | .setContent c => t.set_content c
  | .setDue d => t.set_due d
  | .setCompleted today => t.set_completed today
  | .setNotCompleted => t.set_not_completed

/-- Apply a sequence of setters, oldest first. -/
def applyActs (t : Task) (acts : List Act) : Task := acts.foldl applyAct t

/-- Dates passed to a setter are calendar-valid with a four-digit year. -/
def Act.valid4 : Act → Prop
  | .setDue (some d) => d.valid4
  | .setCompleted today => today.valid4
  | _ => True

/-- Initial task of claim C1: built by new or new_with_date. -/
def mkInit (due0 : Option Date) (c : List Char) (today : Date) : Task :=
  match due0 with
  | none => Task.new c today
  | some d => Task.new_with_date c d today

/-- The date tokens (zero, one or two) greedily matched by the two date
groups of RE_TASK all parse as calendar dates, so that the .unwrap() calls
of from_todotxt cannot panic. -/
def datesOk (s : List Char) : Bool :=
  match matchDateTok (matchPriority (matchCompletion s).2).2 with
  | none => true
  | some (tok1, r3) =>
    (chronoParseDateSp tok1).isSome &&
      (match matchDateTok r3 with
       | none => true
       | some (tok2, _) => (chronoParseDateSp tok2).isSome)

/-- The line carries the completion marker, or fewer than two leading date
tokens (the inputs on which parsing cannot produce a completion date on a
not-completed task). -/
def noOrphanCompDate (s : List Char) : Bool :=
  (matchCompletion s).1 ||
    (match matchDateTok (matchPriority (matchCompletion s).2).2 with
     | none => true
     | some (_, r3) => (matchDateTok r3).isNone)

/-- State invariant of every Task built by new or new_with_date followed by
setter calls whose dates are valid4: no priority, a valid creation date,
completion flag and completion date in step, and the custom tags exactly
mirroring the due date. -/
def GoodTask (t : Task) : Prop :=
  t.priority = none ∧
  (∃ cd, t.creation_date = some cd ∧ cd.valid4) ∧
  (t.completion = false → t.completion_date = none) ∧
  (t.completion = true → ∃ d, t.completion_date = some d ∧ d.valid4) ∧
  (match t.duedate with
   | some d => d.valid4 ∧ t.custom_tags = [("due".toList, formatDate d)]
   | none => t.custom_tags = [])

/-- Occurrence of a tag token after a given position state: the marker
character sits at the start (permitted only when canStart is true) or
right after a space character, and the token is the maximal nonempty run
of non-whitespace characters after the marker (maximal: the occurrence is
followed by a whitespace character or the end of the string). -/
def tagOccursFrom (sym : Char) (canStart : Bool) (c : List Char)
    (tok : List Char) : Prop :=
  tok ≠ [] ∧ (∀ ch ∈ tok, isWS ch = false) ∧
    ∃ pre post, c = pre ++ sym :: (tok ++ post) ∧
      (pre = [] ∧ canStart = true ∨ ∃ q, pre = q ++ [' ']) ∧
      (post = [] ∨ ∃ w rest, post = w :: rest ∧ isWS w = true)

/-- Occurrence of a tag token in a content string, in the sense of the
RE_PROJECT_TAGS / RE_CONTEXT_TAGS pattern: the marker character is at the
start of the string or preceded by a space, and the token is the maximal
nonempty run of non-whitespace characters after the marker. -/
def tagOccurs (sym : Char) (c : List Char) (tok : List Char) : Prop :=
  tagOccursFrom sym true c tok

/-- Common shape of the optional-field comparators: equal present values
fall back to the tie-breaker, distinct present values compare by the given
strict order, and a single present value orders by the someFirstGt policy
(true: present is Greater, as comp_creation_date; false: present is Less,
as comp_due_date and comp_priority). -/
def optCmpG {α : Type} [DecidableEq α] (lt : α → α → Bool) (someFirstGt : Bool)
    (o1 o2 : Option α) (k : Ordering) : Ordering :=
  match o1, o2 with
  | some d1, some d2 => if d1 = d2 then k else if lt d1 d2 then .lt else .gt
  | some _, none => if someFirstGt then .gt else .lt
  | none, some _ => if someFirstGt then .lt else .gt
  | none, none => k

/-! Helper lemmas about the embedded operations. -/

theorem digitChar_isDigit (n : Nat) : (digitChar n).isDigit = true := by
  unfold digitChar
  split <;> decide

theorem digitChar_isNd (n : Nat) : isNd (digitChar n) = true := by
  unfold digitChar
  split <;> decide

theorem digitChar_ne_newline (n : Nat) : digitChar n ≠ '\n' := by
  unfold digitChar
  split <;> decide

theorem digitChar_ne_space (n : Nat) : digitChar n ≠ ' ' := by
  unfold digitChar
  split <;> decide

theorem digitChar_not_ws (n : Nat) : isWS (digitChar n) = false := by
  unfold digitChar
  split <;> decide

theorem digitChar_ok_tag (n : Nat) : okTagChar (digitChar n) = true := by
  unfold digitChar
  split <;> decide

theorem digitVal_digitChar (n : Nat) (h : n < 10) :
    digitVal (digitChar n) = n := by
  interval_cases n <;> rfl

theorem matchCompletion_x (rest : List Char) :
    matchCompletion ('x' :: ' ' :: rest) = (true, rest) := rfl

theorem matchCompletion_of_not (l : List Char)
    (h : ∀ rest, l ≠ 'x' :: ' ' :: rest) : matchCompletion l = (false, l) := by
  unfold matchCompletion
  split
  · exact absurd rfl (h _)
  · rfl

theorem matchPriority_of_not (l : List Char)
    (h : ∀ c rest, l ≠ '(' :: c :: ')' :: ' ' :: rest) :
    matchPriority l = (none, l) := by
  unfold matchPriority
  split
  · exact absurd rfl (h _ _)
  · rfl

theorem matchDateTok_of_no_space (l : List Char) (h : ' ' ∉ l.take 11) :
    matchDateTok l = none := by
  unfold matchDateTok
  split
  · exfalso
    apply h
    simp [List.take]
  · rfl

theorem finishContent_completion (t : Task) (c : List Char) :
    (finishContent t c).completion = t.completion := by
  simp only [finishContent, Task.set_content]
  split <;> rfl

theorem finishContent_priority (t : Task) (c : List Char) :
    (finishContent t c).priority = t.priority := by
  simp only [finishContent, Task.set_content]
  split <;> rfl

theorem finishContent_completion_date (t : Task) (c : List Char) :
    (finishContent t c).completion_date = t.completion_date := by
  simp only [finishContent, Task.set_content]
  split <;> rfl

theorem finishContent_creation_date (t : Task) (c : List Char) :
    (finishContent t c).creation_date = t.creation_date := by
  simp only [finishContent, Task.set_content]
  split <;> rfl

theorem parseBlocks_of_ne_space (c : Char) (rest : List Char) (h : c ≠ ' ') :
    parseBlocks (c :: rest) = none := by
  unfold parseBlocks
  split
  · rename_i heq
    cases heq
    exact absurd rfl h
  · rfl

theorem tagSplitGo_no_space (rem : List Char) (h : ' ' ∉ rem) :
    ∀ acc, tagSplitGo acc rem = (acc.reverse ++ rem, []) := by
  induction rem with
  | nil => intro acc; simp [tagSplitGo]
  | cons c rest ih =>
    intro acc
    have hc : c ≠ ' ' := fun hc => h (hc ▸ List.mem_cons_self c rest)
    have hr : ' ' ∉ rest := fun hm => h (List.mem_cons_of_mem c hm)
    unfold tagSplitGo
    rw [parseBlocks_of_ne_space c rest hc]
    simpa using ih hr (c :: acc)

theorem tagSplit_no_space (l : List Char) (h : ' ' ∉ l) :
    tagSplit l = (l, []) := by
  simpa using tagSplitGo_no_space l h []

theorem from_todotxt_eq_zero_dates (today : Date) (s : List Char)
    (hn : '\n' ∉ s)
    (compl : Bool) (r1 : List Char) (hc : matchCompletion s = (compl, r1))
    (prio : Option Char) (r2 : List Char) (hp : matchPriority r1 = (prio, r2))
    (hd : matchDateTok r2 = none) :
    from_todotxt today s = .ok (finishContent
      { Task.new [] today with
          completion := compl
          priority := prio
          creation_date := none
          completion_date := none } r2) := by
  simp only [from_todotxt, if_neg hn, hc, hp, hd]

theorem from_todotxt_eq_one_date (today : Date) (s : List Char)
    (hn : '\n' ∉ s)
    (compl : Bool) (r1 : List Char) (hc : matchCompletion s = (compl, r1))
    (prio : Option Char) (r2 : List Char) (hp : matchPriority r1 = (prio, r2))
    (tok1 : List Char) (r3 : List Char) (hd1 : matchDateTok r2 = some (tok1, r3))
    (hd2 : matchDateTok r3 = none)
    (crea : Date) (hp1 : chronoParseDateSp tok1 = some crea) :
    from_todotxt today s = .ok (finishContent
      { Task.new [] today with
          completion := compl
          priority := prio
          creation_date := some crea } r3) := by
  simp only [from_todotxt, if_neg hn, hc, hp, hd1, hd2, hp1]

theorem from_todotxt_eq_two_dates (today : Date) (s : List Char)
    (hn : '\n' ∉ s)
    (compl : Bool) (r1 : List Char) (hc : matchCompletion s = (compl, r1))
    (prio : Option Char) (r2 : List Char) (hp : matchPriority r1 = (prio, r2))
    (tok1 : List Char) (r3 : List Char) (hd1 : matchDateTok r2 = some (tok1, r3))
    (tok2 : List Char) (r4 : List Char) (hd2 : matchDateTok r3 = some (tok2, r4))
    (crea : Date) (hcrea : chronoParseDateSp tok2 = some crea)
    (compd : Date) (hcomp : chronoParseDateSp tok1 = some compd) :
    from_todotxt today s = .ok (finishContent
      { Task.new [] today with
          completion := compl
          priority := prio
          creation_date := some crea
          completion_date := some compd } r4) := by
  simp only [from_todotxt, if_neg hn, hc, hp, hd1, hd2, hcrea, hcomp]

theorem finishContent_no_tags (t : Task) (c : List Char)
    (h : tagSplit c = (c, [])) (hc : t.custom_tags = []) :
    finishContent t c = Task.set_content t c := by
  simp only [finishContent, h, List.foldl_nil, Task.set_content, hc, lookupKV]

theorem from_todotxt_one_date_panic (today : Date) (s : List Char)
    (hn : '\n' ∉ s)
    (compl : Bool) (r1 : List Char) (hc : matchCompletion s = (compl, r1))
    (prio : Option Char) (r2 : List Char) (hp : matchPriority r1 = (prio, r2))
    (tok1 : List Char) (r3 : List Char) (hd1 : matchDateTok r2 = some (tok1, r3))
    (hd2 : matchDateTok r3 = none)
    (hp1 : chronoParseDateSp tok1 = none) :
    from_todotxt today s = .panicked := by
  simp only [from_todotxt, if_neg hn, hc, hp, hd1, hd2, hp1]

theorem from_todotxt_two_dates_panic_crea (today : Date) (s : List Char)
    (hn : '\n' ∉ s)
    (compl : Bool) (r1 : List Char) (hc : matchCompletion s = (compl, r1))
    (prio : Option Char) (r2 : List Char) (hp : matchPriority r1 = (prio, r2))
    (tok1 : List Char) (r3 : List Char) (hd1 : matchDateTok r2 = some (tok1, r3))
    (tok2 : List Char) (r4 : List Char) (hd2 : matchDateTok r3 = some (tok2, r4))
    (hcrea : chronoParseDateSp tok2 = none) :
    from_todotxt today s = .panicked := by
  simp only [from_todotxt, if_neg hn, hc, hp, hd1, hd2, hcrea]

theorem from_todotxt_two_dates_panic_comp (today : Date) (s : List Char)
    (hn : '\n' ∉ s)
    (compl : Bool) (r1 : List Char) (hc : matchCompletion s = (compl, r1))
    (prio : Option Char) (r2 : List Char) (hp : matchPriority r1 = (prio, r2))
    (tok1 : List Char) (r3 : List Char) (hd1 : matchDateTok r2 = some (tok1, r3))
    (tok2 : List Char) (r4 : List Char) (hd2 : matchDateTok r3 = some (tok2, r4))
    (crea : Date) (hcrea : chronoParseDateSp tok2 = some crea)
    (hcomp : chronoParseDateSp tok1 = none) :
    from_todotxt today s = .panicked := by
  simp only [from_todotxt, if_neg hn, hc, hp, hd1, hd2, hcrea, hcomp]

/-! Claim theorems. -/

/-- C3 (code bug): on the input "2021-13-99 task", whose date-position
token is not a valid calendar date, from_todotxt does not return the
Malformed error as a result value: the date group of RE_TASK matches the
digit-shaped token, NaiveDate::parse_from_str rejects it, and the .unwrap()
on that result panics. -/
theorem c3_malformed_date_token_panics :
    from_todotxt { year := 2022, month := 3, day := 4 }
      ("2021-13-99 task".toList) = .panicked := by decide

/-- C4 (counterexample): from_todotxt is not total on all strings: the
RE_TASK pattern is anchored and its content group cannot match a newline,
so an input containing a newline fails the overall match and returns the
Err("malformed task") branch that the claim calls unreachable. -/
theorem c4_newline_rejected :
    from_todotxt { year := 2022, month := 3, day := 4 } ("a\nb".toList) =
      .err ("malformed task".toList) := by decide

/-- C4 (amended): from_todotxt returns Ok for every input string that
contains no newline and whose greedily matched leading date tokens (if
any) parse as valid calendar dates; an input containing a newline returns
the Err("malformed task") value. -/
theorem c4_parse_totality (today : Date) (s : List Char) :
    ('\n' ∈ s → from_todotxt today s = .err ("malformed task".toList)) ∧
      ('\n' ∉ s → datesOk s = true → ∃ t, from_todotxt today s = .ok t) := by
  constructor
  · intro h
    unfold from_todotxt
    rw [if_pos h]
  · intro hn hd
    unfold datesOk at hd
    rcases h1 : matchDateTok (matchPriority (matchCompletion s).2).2 with _ | ⟨tok1, r3⟩
    · exact ⟨_, from_todotxt_eq_zero_dates today s hn _ _ rfl _ _ rfl h1⟩
    · rw [h1] at hd
      simp only [Bool.and_eq_true] at hd
      obtain ⟨hd1, hd2⟩ := hd
      obtain ⟨d1, h3⟩ := Option.isSome_iff_exists.mp hd1
      rcases h2 : matchDateTok r3 with _ | ⟨tok2, r4⟩
      · exact ⟨_, from_todotxt_eq_one_date today s hn _ _ rfl _ _ rfl _ _ h1 h2 _ h3⟩
      · rw [h2] at hd2
        simp only [] at hd2
        obtain ⟨d2, h4⟩ := Option.isSome_iff_exists.mp hd2
        exact ⟨_, from_todotxt_eq_two_dates today s hn _ _ rfl _ _ rfl _ _ h1 _ _ h2
          _ h4 _ h3⟩

/-- C4 (witness): a concrete well-formed line parses to Ok. -/
theorem c4_parse_totality_witness :
    ∃ t, from_todotxt { year := 2022, month := 3, day := 4 }
      ("x (A) 2021-09-01 hello".toList) = .ok t :=
  (c4_parse_totality { year := 2022, month := 3, day := 4 } _).2
    (by decide) (by decide)

/-- C10: a line that consists of a single key:value token has no space
before the token, so the trailing tag-block pattern of RE_ALLTAGS cannot
match: the token stays verbatim in the content, the custom tags stay
empty, and the due date stays None even when the key is "due". -/
theorem c10_leading_tag_token (today : Date) (k v : List Char)
    (hk : k ≠ []) (hkc : k.all okTagChar = true) (hvc : v.all okTagChar = true) :
    ∃ t, from_todotxt today (k ++ ':' :: v) = .ok t ∧
      t.content = k ++ ':' :: v ∧ t.custom_tags = [] ∧ t.duedate = none := by
  have hozw : ∀ c : Char, okTagChar c = true → isWS c = false ∧ c ≠ ' ' ∧ c ≠ '\n' := by
    intro c hc
    unfold okTagChar at hc
    simp only [Bool.and_eq_true, bne_iff_ne, ne_eq, Bool.not_eq_true'] at hc
    refine ⟨hc.2, ?_, ?_⟩
    · rintro rfl
      exact absurd hc.2 (by decide)
    · rintro rfl
      exact absurd hc.2 (by decide)
  simp only [List.all_eq_true] at hkc hvc
  have hnosp : ' ' ∉ k ++ ':' :: v := by
    intro hm
    rcases List.mem_append.1 hm with hm | hm
    · exact ((hozw _ (hkc _ hm)).2.1) rfl
    · rcases List.mem_cons.1 hm with hm | hm
      · cases hm
      · exact ((hozw _ (hvc _ hm)).2.1) rfl
  have hnonl : '\n' ∉ k ++ ':' :: v := by
    intro hm
    rcases List.mem_append.1 hm with hm | hm
    · exact ((hozw _ (hkc _ hm)).2.2) rfl
    · rcases List.mem_cons.1 hm with hm | hm
      · cases hm
      · exact ((hozw _ (hvc _ hm)).2.2) rfl
  have hmc : matchCompletion (k ++ ':' :: v) = (false, k ++ ':' :: v) := by
    apply matchCompletion_of_not
    intro rest heq
    apply hnosp
    rw [heq]
    simp
  have hmp : matchPriority (k ++ ':' :: v) = (none, k ++ ':' :: v) := by
    apply matchPriority_of_not
    intro c rest heq
    apply hnosp
    rw [heq]
    simp
  have hmd : matchDateTok (k ++ ':' :: v) = none := by
    apply matchDateTok_of_no_space
    intro hm
    exact hnosp (List.take_subset _ _ hm)
  have hsplit : tagSplit (k ++ ':' :: v) = (k ++ ':' :: v, []) :=
    tagSplit_no_space _ hnosp
  have key := from_todotxt_eq_zero_dates today (k ++ ':' :: v) hnonl
    false (k ++ ':' :: v) hmc none (k ++ ':' :: v) hmp hmd
  rw [finishContent_no_tags
    { Task.new [] today with
        completion := false
        priority := none
        creation_date := none
        completion_date := none } (k ++ ':' :: v) hsplit rfl] at key
  exact ⟨_, key, rfl, rfl, rfl⟩

/-- C10 (witness): the concrete line "due:2021-01-01". -/
theorem c10_leading_tag_token_witness :
    ∃ t, from_todotxt { year := 2022, month := 3, day := 4 }
      ("due".toList ++ ':' :: ("2021-01-01".toList)) = .ok t ∧
      t.content = "due".toList ++ ':' :: ("2021-01-01".toList) ∧
      t.custom_tags = [] ∧ t.duedate = none :=
  c10_leading_tag_token { year := 2022, month := 3, day := 4 }
    ("due".toList) ("2021-01-01".toList) (by decide) (by decide) (by decide)

/-- C8: asymmetric missing-value ordering of the date comparators: an
undated task sorts before a creation-dated one (only `a` dated gives
Greater), while a due-dated task sorts before an undated one (only `a`
dated gives Less); equal present dates and doubly-absent dates fall back
to the content comparison. -/
theorem c8_missing_value_ordering (a b : Task) :
    ((∃ d, a.creation_date = some d) → b.creation_date = none →
      comp_creation_date a b = .gt) ∧
    (a.creation_date = none → (∃ d, b.creation_date = some d) →
      comp_creation_date a b = .lt) ∧
    (∀ d, a.creation_date = some d → b.creation_date = some d →
      comp_creation_date a b = comp_content a b) ∧
    (a.creation_date = none → b.creation_date = none →
      comp_creation_date a b = comp_content a b) ∧
    ((∃ d, a.duedate = some d) → b.duedate = none → comp_due_date a b = .lt) ∧
    (a.duedate = none → (∃ d, b.duedate = some d) → comp_due_date a b = .gt) ∧
    (∀ d, a.duedate = some d → b.duedate = some d →
      comp_due_date a b = comp_content a b) ∧
    (a.duedate = none → b.duedate = none →
      comp_due_date a b = comp_content a b) := by
  refine ⟨?_, ?_, ?_, ?_, ?_, ?_, ?_, ?_⟩
  · rintro ⟨d, ha⟩ hb
    simp [comp_creation_date, ha, hb]
  · rintro ha ⟨d, hb⟩
    simp [comp_creation_date, ha, hb]
  · intro d ha hb
    simp [comp_creation_date, ha, hb]
  · intro ha hb
    simp [comp_creation_date, ha, hb]
  · rintro ⟨d, ha⟩ hb
    simp [comp_due_date, ha, hb]
  · rintro ha ⟨d, hb⟩
    simp [comp_due_date, ha, hb]
  · intro d ha hb
    simp [comp_due_date, ha, hb]
  · intro ha hb
    simp [comp_due_date, ha, hb]

/-- C8 (witness): a creation-dated task against an undated one compares
Greater by creation date, and a due-dated task against one without a due
date compares Less by due date. -/
theorem c8_missing_value_ordering_witness :
    comp_creation_date
        { Task.empty with
            creation_date := some { year := 2021, month := 1, day := 1 }
            duedate := some { year := 2021, month := 1, day := 1 } }
        Task.empty = .gt ∧
      comp_due_date
        { Task.empty with
            creation_date := some { year := 2021, month := 1, day := 1 }
            duedate := some { year := 2021, month := 1, day := 1 } }
        Task.empty = .lt :=
  ⟨(c8_missing_value_ordering _ _).1 ⟨_, rfl⟩ rfl,
    (c8_missing_value_ordering _ _).2.2.2.2.1 ⟨_, rfl⟩ rfl⟩

/-- C2: date-count disambiguation of from_todotxt: writing tok1 and tok2
for the tokens greedily matched by the first and second date group of
RE_TASK (after the optional completion marker and priority groups), a
successful parse assigns, when both groups matched, the first token to the
completion date and the second to the creation date; when only the first
group matched, that token to the creation date with no completion date;
and when neither matched, None to both — regardless of the completion
marker. -/
theorem c2_date_count_assignment (today : Date) (s : List Char) (t : Task)
    (h : from_todotxt today s = .ok t) :
    (matchDateTok (matchPriority (matchCompletion s).2).2 = none →
      t.completion_date = none ∧ t.creation_date = none) ∧
    (∀ tok1 r3,
      matchDateTok (matchPriority (matchCompletion s).2).2 = some (tok1, r3) →
      matchDateTok r3 = none →
      t.completion_date = none ∧ t.creation_date = chronoParseDateSp tok1) ∧
    (∀ tok1 r3 tok2 r4,
      matchDateTok (matchPriority (matchCompletion s).2).2 = some (tok1, r3) →
      matchDateTok r3 = some (tok2, r4) →
      t.completion_date = chronoParseDateSp tok1 ∧
        t.creation_date = chronoParseDateSp tok2) := by
  have hn : '\n' ∉ s := by
    intro hnn
    unfold from_todotxt at h
    rw [if_pos hnn] at h
    cases h
  refine ⟨?_, ?_, ?_⟩
  · intro hd1
    have key := from_todotxt_eq_zero_dates today s hn _ _ rfl _ _ rfl hd1
    rw [key] at h
    injection h with h2
    subst h2
    exact ⟨finishContent_completion_date _ _, finishContent_creation_date _ _⟩
  · intro tok1 r3 hd1 hd2
    rcases h3 : chronoParseDateSp tok1 with _ | d1
    · rw [from_todotxt_one_date_panic today s hn _ _ rfl _ _ rfl _ _ hd1 hd2 h3] at h
      cases h
    · have key := from_todotxt_eq_one_date today s hn _ _ rfl _ _ rfl _ _ hd1 hd2 _ h3
      rw [key] at h
      injection h with h4
      subst h4
      refine ⟨?_, ?_⟩
      · rw [finishContent_completion_date]
        rfl
      · rw [finishContent_creation_date]
  · intro tok1 r3 tok2 r4 hd1 hd2
    rcases h3 : chronoParseDateSp tok2 with _ | d2
    · rw [from_todotxt_two_dates_panic_crea today s hn _ _ rfl _ _ rfl
        _ _ hd1 _ _ hd2 h3] at h
      cases h
    · rcases h4 : chronoParseDateSp tok1 with _ | d1
      · rw [from_todotxt_two_dates_panic_comp today s hn _ _ rfl _ _ rfl
          _ _ hd1 _ _ hd2 _ h3 h4] at h
        cases h
      · have key := from_todotxt_eq_two_dates today s hn _ _ rfl _ _ rfl
          _ _ hd1 _ _ hd2 _ h3 _ h4
        rw [key] at h
        injection h with h5
        subst h5
        refine ⟨?_, ?_⟩
        · rw [finishContent_completion_date]
        · rw [finishContent_creation_date]

/-- C2 (witness): the spec example "2021-01-01 2021-01-02 task" parses with
completion date 2021-01-01 and creation date 2021-01-02. -/
theorem c2_date_count_assignment_witness :
    (Task.mk ("task".toList) none false
        (some { year := 2021, month := 1, day := 1 })
        (some { year := 2021, month := 1, day := 2 })
        none [] [] []).completion_date =
        some { year := 2021, month := 1, day := 1 } ∧
      (Task.mk ("task".toList) none false
        (some { year := 2021, month := 1, day := 1 })
        (some { year := 2021, month := 1, day := 2 })
        none [] [] []).creation_date =
        some { year := 2021, month := 1, day := 2 } :=
  (c2_date_count_assignment { year := 2022, month := 3, day := 4 }
      ("2021-01-01 2021-01-02 task".toList) _ (by decide)).2.2
    ("2021-01-01 ".toList) ("2021-01-02 task".toList)
    ("2021-01-02 ".toList) ("task".toList) (by decide) (by decide)

/-- Setters preserve a task invariant pointwise, hence over sequences. -/
theorem applyActs_pres (P : Task → Prop)
    (hstep : ∀ t a, P t → P (applyAct t a)) :
    ∀ (acts : List Act) (t : Task), P t → P (applyActs t acts) := by
  intro acts
  induction acts with
  | nil => intro t h; exact h
  | cons a rest ih => intro t h; exact ih (applyAct t a) (hstep t a h)

/-- Inversion of a successful parse: the completion flag is exactly the
completion-marker group; a completion date is only ever set together with
a creation date, and only when both date groups matched. -/
theorem from_todotxt_ok_inv (td : Date) (s : List Char) (t : Task)
    (h : from_todotxt td s = .ok t) :
    t.completion = (matchCompletion s).1 ∧
      (t.completion_date = none ∨
        ((∃ d, t.completion_date = some d) ∧ ∃ c, t.creation_date = some c)) ∧
      (t.completion_date ≠ none →
        ∃ tok1 r3 tok2 r4,
          matchDateTok (matchPriority (matchCompletion s).2).2 = some (tok1, r3) ∧
            matchDateTok r3 = some (tok2, r4)) := by
  have hn : '\n' ∉ s := by
    intro hnn
    unfold from_todotxt at h
    rw [if_pos hnn] at h
    cases h
  rcases h1 : matchDateTok (matchPriority (matchCompletion s).2).2 with _ | ⟨tok1, r3⟩
  · have key := from_todotxt_eq_zero_dates td s hn _ _ rfl _ _ rfl h1
    rw [key] at h
    injection h with h2
    subst h2
    refine ⟨finishContent_completion _ _, Or.inl ?_, fun hne => absurd ?_ hne⟩
    · rw [finishContent_completion_date]
    · rw [finishContent_completion_date]
  · rcases h2 : matchDateTok r3 with _ | ⟨tok2, r4⟩
    · rcases h3 : chronoParseDateSp tok1 with _ | d1
      · rw [from_todotxt_one_date_panic td s hn _ _ rfl _ _ rfl _ _ h1 h2 h3] at h
        cases h
      · have key := from_todotxt_eq_one_date td s hn _ _ rfl _ _ rfl _ _ h1 h2 _ h3
        rw [key] at h
        injection h with h4
        subst h4
        refine ⟨finishContent_completion _ _, Or.inl ?_, fun hne => absurd ?_ hne⟩
        · rw [finishContent_completion_date]
          rfl
        · rw [finishContent_completion_date]
          rfl
    · rcases h3 : chronoParseDateSp tok2 with _ | d2
      · rw [from_todotxt_two_dates_panic_crea td s hn _ _ rfl _ _ rfl
          _ _ h1 _ _ h2 h3] at h
        cases h
      · rcases h4 : chronoParseDateSp tok1 with _ | d1
        · rw [from_todotxt_two_dates_panic_comp td s hn _ _ rfl _ _ rfl
            _ _ h1 _ _ h2 _ h3 h4] at h
          cases h
        · have key := from_todotxt_eq_two_dates td s hn _ _ rfl _ _ rfl
            _ _ h1 _ _ h2 _ h3 _ h4
          rw [key] at h
          injection h with h5
          subst h5
          refine ⟨finishContent_completion _ _,
            Or.inr ⟨⟨d1, ?_⟩, ⟨d2, ?_⟩⟩,
            fun _ => ⟨tok1, r3, tok2, r4, rfl, h2⟩⟩
          · rw [finishContent_completion_date]
          · rw [finishContent_creation_date]

/-- C5 (counterexample): a line with two leading date tokens and no
completion marker parses to a task whose completion flag is false but
whose completion date is set, refuting the invariant for from_todotxt. -/
theorem c5_two_dates_without_marker :
    from_todotxt { year := 2022, month := 3, day := 4 }
        ("2020-01-01 2020-01-02 t".toList) =
      .ok (Task.mk ("t".toList) none false
        (some { year := 2020, month := 1, day := 1 })
        (some { year := 2020, month := 1, day := 2 })
        none [] [] []) ∧
      (Task.mk ("t".toList) none false
        (some { year := 2020, month := 1, day := 1 })
        (some { year := 2020, month := 1, day := 2 })
        none [] [] []).completion = false ∧
      (Task.mk ("t".toList) none false
        (some { year := 2020, month := 1, day := 1 })
        (some { year := 2020, month := 1, day := 2 })
        none [] [] []).completion_date ≠ none := by
  refine ⟨by decide, rfl, by decide⟩

/-- C5 (amended): completion_date is None whenever completion is false,
for every task built from empty, new or new_with_date followed by any
setter sequence, and from from_todotxt on lines that carry the completion
marker or have fewer than two leading date tokens; a non-completed line
with two date tokens is the (only) exception. -/
theorem c5_completion_date_invariant (t0 : Task)
    (h0 : t0 = Task.empty ∨ (∃ c td, t0 = Task.new c td) ∨
      (∃ c d td, t0 = Task.new_with_date c d td) ∨
      (∃ td s, from_todotxt td s = .ok t0 ∧ noOrphanCompDate s = true))
    (acts : List Act) :
    (applyActs t0 acts).completion = false →
      (applyActs t0 acts).completion_date = none := by
  have step : ∀ t a, (t.completion = false → t.completion_date = none) →
      ((applyAct t a).completion = false → (applyAct t a).completion_date = none) := by
    intro t a hP
    cases a with
    | setContent c => exact hP
    | setDue d => cases d <;> exact hP
    | setCompleted td =>
      intro hc
      simp [applyAct, Task.set_completed] at hc
    | setNotCompleted => intro _; rfl
  refine applyActs_pres _ step acts t0 ?_
  rcases h0 with rfl | ⟨c, td, rfl⟩ | ⟨c, d, td, rfl⟩ | ⟨td, s, hpar, hno⟩
  · intro _; rfl
  · intro _; rfl
  · intro _; rfl
  · intro hcomp
    obtain ⟨hflag, _, htwo⟩ := from_todotxt_ok_inv td s t0 hpar
    by_cases hcd : t0.completion_date = none
    · exact hcd
    · exfalso
      obtain ⟨tok1, r3, tok2, r4, hd1, hd2⟩ := htwo hcd
      unfold noOrphanCompDate at hno
      rw [hd1] at hno
      rw [hflag] at hcomp
      rw [hcomp] at hno
      simp only [Bool.false_or] at hno
      rw [hd2] at hno
      simp at hno

/-- C5 (witness): completing then un-completing a new task leaves no
completion date. -/
theorem c5_completion_date_invariant_witness :
    (applyActs (Task.new ("a".toList) { year := 2021, month := 1, day := 1 })
        [Act.setCompleted { year := 2021, month := 1, day := 2 },
          Act.setNotCompleted]).completion_date = none :=
  c5_completion_date_invariant _ (Or.inr (Or.inl ⟨_, _, rfl⟩)) _ (by decide)

/-- C6: after any setter sequence from any constructor (from_todotxt
included), a set completion date implies a set creation date; moreover
set_completed on a task without a creation date sets the creation date and
the completion date to the same date. -/
theorem c6_completion_implies_creation (t0 : Task)
    (h0 : t0 = Task.empty ∨ (∃ c td, t0 = Task.new c td) ∨
      (∃ c d td, t0 = Task.new_with_date c d td) ∨
      (∃ td s, from_todotxt td s = .ok t0))
    (acts : List Act) :
    (∀ d, (applyActs t0 acts).completion_date = some d →
      ∃ cd, (applyActs t0 acts).creation_date = some cd) ∧
      (∀ (t : Task) (td : Date), t.creation_date = none →
        (t.set_completed td).creation_date = some td ∧
          (t.set_completed td).completion_date = some td) := by
  constructor
  · have step : ∀ t a,
        (∀ d, t.completion_date = some d → ∃ cd, t.creation_date = some cd) →
        (∀ d, (applyAct t a).completion_date = some d →
          ∃ cd, (applyAct t a).creation_date = some cd) := by
      intro t a hP
      cases a with
      | setContent c => exact hP
      | setDue dd => cases dd <;> exact hP
      | setCompleted td =>
        intro d hd
        rcases ht : t.creation_date with _ | c0
        · exact ⟨td, by simp [applyAct, Task.set_completed, ht]⟩
        · exact ⟨c0, by simp [applyAct, Task.set_completed, ht]⟩
      | setNotCompleted =>
        intro d hd
        cases hd
    refine applyActs_pres _ step acts t0 ?_
    rcases h0 with rfl | ⟨c, td, rfl⟩ | ⟨c, d, td, rfl⟩ | ⟨td, s, hpar⟩
    · intro d hd; cases hd
    · intro d hd; cases hd
    · intro d hd; cases hd
    · intro d hd
      obtain ⟨_, hP6, _⟩ := from_todotxt_ok_inv td s t0 hpar
      rcases hP6 with hnone | ⟨_, hc⟩
      · rw [hnone] at hd; cases hd
      · exact hc
  · intro t td h
    constructor
    · simp [Task.set_completed, h]
    · rfl

/-- C6 (witness): completing an empty task (no creation date) yields equal
creation and completion dates. -/
theorem c6_completion_implies_creation_witness :
    (∃ cd, (applyActs Task.empty
      [Act.setCompleted { year := 2021, month := 2, day := 3 }]).creation_date =
        some cd) ∧
      (Task.empty.set_completed { year := 2021, month := 2, day := 3 }).creation_date =
          some { year := 2021, month := 2, day := 3 } ∧
        (Task.empty.set_completed { year := 2021, month := 2, day := 3 }).completion_date =
          some { year := 2021, month := 2, day := 3 } :=
  ⟨(c6_completion_implies_creation Task.empty (Or.inl rfl)
      [Act.setCompleted { year := 2021, month := 2, day := 3 }]).1
      { year := 2021, month := 2, day := 3 } (by decide),
    (c6_completion_implies_creation Task.empty (Or.inl rfl) []).2
      Task.empty { year := 2021, month := 2, day := 3 } rfl⟩

/-! Order theory of the comparators, for claim C9. -/

theorem lexLt_irrefl : ∀ a : List Char, lexLt a a = false := by
  intro a
  induction a with
  | nil => rfl
  | cons x xs ih => simp [lexLt, ih]

theorem lexLt_asymm : ∀ a b : List Char,
    lexLt a b = true → lexLt b a = false := by
  intro a
  induction a with
  | nil =>
    intro b h
    cases b with
    | nil => simp [lexLt] at h
    | cons y ys => rfl
  | cons x xs ih =>
    intro b h
    cases b with
    | nil => simp [lexLt] at h
    | cons y ys =>
      simp only [lexLt] at h ⊢
      by_cases hxy : x = y
      · subst hxy
        rw [if_pos rfl] at h ⊢
        exact ih ys h
      · rw [if_neg hxy] at h
        rw [if_neg (Ne.symm hxy)]
        simp only [decide_eq_true_eq] at h
        simp only [decide_eq_false_iff_not]
        exact lt_asymm h

theorem lexLt_connex : ∀ a b : List Char,
    lexLt a b = false → lexLt b a = false → a = b := by
  intro a
  induction a with
  | nil =>
    intro b h1 h2
    cases b with
    | nil => rfl
    | cons y ys => simp [lexLt] at h1
  | cons x xs ih =>
    intro b h1 h2
    cases b with
    | nil => simp [lexLt] at h2
    | cons y ys =>
      simp only [lexLt] at h1 h2
      by_cases hxy : x = y
      · subst hxy
        rw [if_pos rfl] at h1 h2
        rw [ih ys h1 h2]
      · rw [if_neg hxy] at h1
        rw [if_neg (Ne.symm hxy)] at h2
        simp only [decide_eq_false_iff_not] at h1 h2
        rcases lt_trichotomy x y with h | h | h
        · exact absurd h h1
        · exact absurd h hxy
        · exact absurd h h2

theorem lexLt_trans : ∀ a b c : List Char,
    lexLt a b = true → lexLt b c = true → lexLt a c = true := by
  intro a
  induction a with
  | nil =>
    intro b c h1 h2
    cases b with
    | nil => simp [lexLt] at h1
    | cons y ys =>
      cases c with
      | nil => simp [lexLt] at h2
      | cons z zs => rfl
  | cons x xs ih =>
    intro b c h1 h2
    cases b with
    | nil => simp [lexLt] at h1
    | cons y ys =>
      cases c with
      | nil => simp [lexLt] at h2
      | cons z zs =>
        simp only [lexLt] at h1 h2 ⊢
        by_cases hxy : x = y
        · subst hxy
          rw [if_pos rfl] at h1
          by_cases hyz : x = z
          · subst hyz
            rw [if_pos rfl] at h2 ⊢
            exact ih ys zs h1 h2
          · rw [if_neg hyz] at h2 ⊢
            exact h2
        · rw [if_neg hxy] at h1
          simp only [decide_eq_true_eq] at h1
          by_cases hyz : y = z
          · subst hyz
            rw [if_neg hxy]
            exact decide_eq_true h1
          · rw [if_neg hyz] at h2
            simp only [decide_eq_true_eq] at h2
            have hxz : x < z := lt_trans h1 h2
            rw [if_neg (ne_of_lt hxz)]
            exact decide_eq_true hxz

theorem dateLt_iff (a b : Date) : dateLt a b = true ↔
    (a.year < b.year ∨ (a.year = b.year ∧
      (a.month < b.month ∨ (a.month = b.month ∧ a.day < b.day)))) := by
  unfold dateLt
  simp [Bool.or_eq_true, Bool.and_eq_true, decide_eq_true_eq, beq_iff_eq]

theorem dateLt_asymm (a b : Date) (h : dateLt a b = true) :
    dateLt b a = false := by
  cases hb : dateLt b a
  · rfl
  · rw [dateLt_iff] at h
    have hba := (dateLt_iff b a).mp hb
    exfalso
    omega

theorem dateLt_trans (a b c : Date) (h1 : dateLt a b = true)
    (h2 : dateLt b c = true) : dateLt a c = true := by
  rw [dateLt_iff] at h1 h2 ⊢
  omega

theorem dateLt_connex (a b : Date) (h1 : dateLt a b = false)
    (h2 : dateLt b a = false) : a = b := by
  have n1 : ¬ (a.year < b.year ∨ (a.year = b.year ∧
      (a.month < b.month ∨ (a.month = b.month ∧ a.day < b.day)))) := by
    intro hp
    rw [(dateLt_iff a b).mpr hp] at h1
    cases h1
  have n2 : ¬ (b.year < a.year ∨ (b.year = a.year ∧
      (b.month < a.month ∨ (b.month = a.month ∧ b.day < a.day)))) := by
    intro hp
    rw [(dateLt_iff b a).mpr hp] at h2
    cases h2
  rcases a with ⟨ay, am, ad⟩
  rcases b with ⟨by0, bm, bd⟩
  simp only [Date.mk.injEq]
  simp only at n1 n2
  omega

theorem charLtB_asymm (x y : Char) (h : decide (x < y) = true) :
    decide (y < x) = false := by
  simp only [decide_eq_true_eq] at h
  simp only [decide_eq_false_iff_not]
  exact lt_asymm h

theorem charLtB_connex (x y : Char) (h1 : decide (x < y) = false)
    (h2 : decide (y < x) = false) : x = y := by
  simp only [decide_eq_false_iff_not] at h1 h2
  rcases lt_trichotomy x y with h | h | h
  · exact absurd h h1
  · exact h
  · exact absurd h h2

theorem charLtB_trans (x y z : Char) (h1 : decide (x < y) = true)
    (h2 : decide (y < z) = true) : decide (x < z) = true := by
  simp only [decide_eq_true_eq] at h1 h2 ⊢
  exact lt_trans h1 h2

theorem optCmpG_self {α : Type} [DecidableEq α] (lt : α → α → Bool)
    (f : Bool) (o : Option α) (k : Ordering) (hk : k = .eq) :
    optCmpG lt f o o k = .eq := by
  cases o <;> simp [optCmpG, hk]

theorem optCmpG_swap {α : Type} [DecidableEq α] (lt : α → α → Bool) (f : Bool)
    (hasym : ∀ x y, lt x y = true → lt y x = false)
    (hconn : ∀ x y, lt x y = false → lt y x = false → x = y)
    (o1 o2 : Option α) (k1 k2 : Ordering) (hk : k1 = k2.swap) :
    optCmpG lt f o1 o2 k1 = (optCmpG lt f o2 o1 k2).swap := by
  rcases o1 with _ | d1 <;> rcases o2 with _ | d2
  · simpa [optCmpG] using hk
  · cases f <;> simp [optCmpG, Ordering.swap]
  · cases f <;> simp [optCmpG, Ordering.swap]
  · simp only [optCmpG]
    by_cases he : d1 = d2
    · subst he
      rw [if_pos rfl, if_pos rfl]
      exact hk
    · rw [if_neg he, if_neg (Ne.symm he)]
      cases hlt : lt d1 d2
      · cases hlt2 : lt d2 d1
        · exact absurd (hconn _ _ hlt hlt2) he
        · simp [Ordering.swap]
      · rw [hasym _ _ hlt]
        simp [Ordering.swap]

theorem optCmpG_trans {α : Type} [DecidableEq α] (lt : α → α → Bool) (f : Bool)
    (hasym : ∀ x y, lt x y = true → lt y x = false)
    (htrans : ∀ x y z, lt x y = true → lt y z = true → lt x z = true)
    (o1 o2 o3 : Option α) (k12 k23 k13 : Ordering)
    (hk : k12 ≠ .gt → k23 ≠ .gt → k13 ≠ .gt)
    (h12 : optCmpG lt f o1 o2 k12 ≠ .gt)
    (h23 : optCmpG lt f o2 o3 k23 ≠ .gt) :
    optCmpG lt f o1 o3 k13 ≠ .gt := by
  rcases o1 with _ | d1 <;> rcases o2 with _ | d2 <;> rcases o3 with _ | d3 <;>
    simp only [optCmpG] at h12 h23 ⊢
  · exact hk h12 h23
  · cases f <;> simp_all
  · cases f <;> simp_all
  · cases f <;> simp_all
  · cases f <;> simp_all
  · cases f <;> simp_all
  · cases f <;> simp_all
  · by_cases e12 : d1 = d2
    · subst e12
      rw [if_pos rfl] at h12
      by_cases e13 : d1 = d3
      · subst e13
        rw [if_pos rfl] at h23 ⊢
        exact hk h12 h23
      · rw [if_neg e13] at h23 ⊢
        exact h23
    · rw [if_neg e12] at h12
      have hlt12 : lt d1 d2 = true := by
        by_contra hl
        rw [Bool.not_eq_true] at hl
        rw [hl] at h12
        simp at h12
      by_cases e23 : d2 = d3
      · subst e23
        rw [if_neg e12, hlt12]
        simp
      · rw [if_neg e23] at h23
        have hlt23 : lt d2 d3 = true := by
          by_contra hl
          rw [Bool.not_eq_true] at hl
          rw [hl] at h23
          simp at h23
        by_cases e13 : d1 = d3
        · subst e13
          exfalso
          have hf := hasym _ _ hlt12
          rw [hf] at hlt23
          cases hlt23
        · rw [if_neg e13, htrans _ _ _ hlt12 hlt23]
          simp

theorem comp_creation_eq_optCmpG (a b : Task) :
    comp_creation_date a b =
      optCmpG dateLt true a.creation_date b.creation_date (comp_content a b) := by
  rcases ha : a.creation_date with _ | d1 <;> rcases hb : b.creation_date with _ | d2 <;>
    simp [comp_creation_date, optCmpG, ha, hb]

theorem comp_due_eq_optCmpG (a b : Task) :
    comp_due_date a b =
      optCmpG dateLt false a.duedate b.duedate (comp_content a b) := by
  rcases ha : a.duedate with _ | d1 <;> rcases hb : b.duedate with _ | d2 <;>
    simp [comp_due_date, optCmpG, ha, hb]

theorem comp_priority_eq_optCmpG (a b : Task) :
    comp_priority a b =
      optCmpG (fun x y => decide (x < y)) false a.priority b.priority
        (comp_due_date a b) := by
  rcases ha : a.priority with _ | p1 <;> rcases hb : b.priority with _ | p2 <;>
    simp [comp_priority, optCmpG, ha, hb]

theorem comp_content_self (a : Task) : comp_content a a = .eq := by
  simp [comp_content]

theorem comp_content_swap (a b : Task) :
    comp_content a b = (comp_content b a).swap := by
  by_cases he : a.content = b.content
  · simp [comp_content, he, Ordering.swap]
  · cases hlt : lexLt a.content b.content
    · cases hlt2 : lexLt b.content a.content
      · exact absurd (lexLt_connex _ _ hlt2 hlt) (Ne.symm he)
      · simp [comp_content, he, Ne.symm he, hlt, hlt2, Ordering.swap]
    · simp [comp_content, he, Ne.symm he, hlt, lexLt_asymm _ _ hlt, Ordering.swap]

theorem comp_content_trans (a b c : Task) (h1 : comp_content a b ≠ .gt)
    (h2 : comp_content b c ≠ .gt) : comp_content a c ≠ .gt := by
  unfold comp_content at h1 h2 ⊢
  by_cases hab : a.content = b.content
  · rw [hab]
    exact h2
  · rw [if_neg hab] at h1
    have hlt1 : lexLt a.content b.content = true := by
      by_contra hx
      rw [Bool.not_eq_true] at hx
      rw [hx] at h1
      simp at h1
    by_cases hbc : b.content = c.content
    · rw [← hbc]
      rw [if_neg hab, hlt1]
      simp
    · rw [if_neg hbc] at h2
      have hlt2 : lexLt b.content c.content = true := by
        by_contra hx
        rw [Bool.not_eq_true] at hx
        rw [hx] at h2
        simp at h2
      have hlt3 := lexLt_trans _ _ _ hlt1 hlt2
      have hne : a.content ≠ c.content := by
        intro he
        rw [he] at hlt1
        have hf := lexLt_asymm _ _ hlt2
        rw [hf] at hlt1
        cases hlt1
      rw [if_neg hne, hlt3]
      simp

theorem comp_content_eq_lexCmp (a b : Task) :
    comp_content a b = lexCmp a.content b.content := by
  have H : ∀ x y : List Char,
      (if x = y then Ordering.eq
       else if lexLt x y then Ordering.lt else Ordering.gt) = lexCmp x y := by
    intro x
    induction x with
    | nil =>
      intro y
      cases y with
      | nil => simp [lexCmp]
      | cons z zs => simp [lexCmp, lexLt]
    | cons w ws ih =>
      intro y
      cases y with
      | nil => simp [lexCmp, lexLt]
      | cons z zs =>
        by_cases hwz : w = z
        · subst hwz
          have e1 : lexLt (w :: ws) (w :: zs) = lexLt ws zs := by simp [lexLt]
          have e2 : lexCmp (w :: ws) (w :: zs) = lexCmp ws zs := by simp [lexCmp]
          rw [e1, e2, ← ih zs]
          simp [List.cons.injEq]
        · have hne : w :: ws ≠ z :: zs := by simp [hwz]
          have e1 : lexLt (w :: ws) (z :: zs) = decide (w < z) := by
            simp [lexLt, hwz]
          have e2 : lexCmp (w :: ws) (z :: zs) =
              (if w < z then Ordering.lt else Ordering.gt) := by
            simp [lexCmp, hwz]
          rw [if_neg hne, e1, e2]
          by_cases hlt : w < z
          · simp [hlt]
          · simp [hlt]
  exact H a.content b.content

theorem comp_due_self (a : Task) : comp_due_date a a = .eq := by
  rw [comp_due_eq_optCmpG]
  exact optCmpG_self _ _ _ _ (comp_content_self a)

theorem comp_due_swap (a b : Task) :
    comp_due_date a b = (comp_due_date b a).swap := by
  rw [comp_due_eq_optCmpG, comp_due_eq_optCmpG]
  exact optCmpG_swap dateLt false dateLt_asymm dateLt_connex _ _ _ _
    (comp_content_swap a b)

theorem comp_due_trans (a b c : Task) (h1 : comp_due_date a b ≠ .gt)
    (h2 : comp_due_date b c ≠ .gt) : comp_due_date a c ≠ .gt := by
  rw [comp_due_eq_optCmpG] at h1 h2 ⊢
  exact optCmpG_trans dateLt false dateLt_asymm dateLt_trans _ _ _ _ _ _
    (comp_content_trans a b c) h1 h2

theorem comp_creation_self (a : Task) : comp_creation_date a a = .eq := by
  rw [comp_creation_eq_optCmpG]
  exact optCmpG_self _ _ _ _ (comp_content_self a)

theorem comp_creation_swap (a b : Task) :
    comp_creation_date a b = (comp_creation_date b a).swap := by
  rw [comp_creation_eq_optCmpG, comp_creation_eq_optCmpG]
  exact optCmpG_swap dateLt true dateLt_asymm dateLt_connex _ _ _ _
    (comp_content_swap a b)

theorem comp_creation_trans (a b c : Task) (h1 : comp_creation_date a b ≠ .gt)
    (h2 : comp_creation_date b c ≠ .gt) : comp_creation_date a c ≠ .gt := by
  rw [comp_creation_eq_optCmpG] at h1 h2 ⊢
  exact optCmpG_trans dateLt true dateLt_asymm dateLt_trans _ _ _ _ _ _
    (comp_content_trans a b c) h1 h2

theorem comp_priority_self (a : Task) : comp_priority a a = .eq := by
  rw [comp_priority_eq_optCmpG]
  exact optCmpG_self _ _ _ _ (comp_due_self a)

theorem comp_priority_swap (a b : Task) :
    comp_priority a b = (comp_priority b a).swap := by
  rw [comp_priority_eq_optCmpG, comp_priority_eq_optCmpG]
  exact optCmpG_swap _ false charLtB_asymm charLtB_connex _ _ _ _
    (comp_due_swap a b)

theorem comp_priority_trans (a b c : Task) (h1 : comp_priority a b ≠ .gt)
    (h2 : comp_priority b c ≠ .gt) : comp_priority a c ≠ .gt := by
  rw [comp_priority_eq_optCmpG] at h1 h2 ⊢
  exact optCmpG_trans _ false charLtB_asymm charLtB_trans _ _ _ _ _ _
    (comp_due_trans a b c) h1 h2

/-- C9: each of the four comparators is reflexive (compare of a task with
itself is Equal), antisymmetric (comparing the other way round gives the
opposite ordering), and transitive on the at-most-Equal relation; and
comp_content is exactly the lexicographic three-way comparison of the raw
content strings. -/
theorem c9_comparator_total_order (sort : SortTaskBy) (a b c : Task) :
    _comp a a sort = .eq ∧
      _comp a b sort = (_comp b a sort).swap ∧
      (_comp a b sort ≠ .gt → _comp b c sort ≠ .gt → _comp a c sort ≠ .gt) ∧
      comp_content a b = lexCmp a.content b.content := by
  cases sort with
  | CreationDate =>
    exact ⟨comp_creation_self a, comp_creation_swap a b,
      comp_creation_trans a b c, comp_content_eq_lexCmp a b⟩
  | Content =>
    exact ⟨comp_content_self a, comp_content_swap a b,
      comp_content_trans a b c, comp_content_eq_lexCmp a b⟩
  | Priority =>
    exact ⟨comp_priority_self a, comp_priority_swap a b,
      comp_priority_trans a b c, comp_content_eq_lexCmp a b⟩
  | DueDate =>
    exact ⟨comp_due_self a, comp_due_swap a b,
      comp_due_trans a b c, comp_content_eq_lexCmp a b⟩

/-- C9 (witness): transitivity of the priority comparator at three
concrete tasks. -/
theorem c9_comparator_total_order_witness :
    _comp { Task.empty with priority := some 'A' }
      { Task.empty with priority := some 'C', content := "z".toList }
      SortTaskBy.Priority ≠ .gt :=
  (c9_comparator_total_order SortTaskBy.Priority
      { Task.empty with priority := some 'A' }
      { Task.empty with priority := some 'B' }
      { Task.empty with priority := some 'C', content := "z".toList }).2.2.1
    (by decide) (by decide)

/-! Characterization of the tag scanner, for claim C7. -/

theorem dropWhile_eq_nil_all (p : Char → Bool) (l : List Char)
    (h : l.dropWhile p = []) : ∀ x ∈ l, p x = true := by
  induction l with
  | nil => simp
  | cons a r ih =>
    rw [List.dropWhile] at h
    cases hp : p a
    · rw [hp] at h
      cases h
    · rw [hp] at h
      intro x hx
      rcases List.mem_cons.1 hx with rfl | hx
      · exact hp
      · exact ih h x hx

theorem dropWhile_head_false (p : Char → Bool) (l : List Char) (w : Char)
    (r : List Char) (h : l.dropWhile p = w :: r) : p w = false := by
  have hh := List.head?_dropWhile_not p l
  rw [h] at hh
  simpa using hh

theorem takeWhile_unique (p : Char → Bool) :
    ∀ (tok l post : List Char), l = tok ++ post →
      (∀ x ∈ tok, p x = true) →
      (post = [] ∨ ∃ w r, post = w :: r ∧ p w = false) →
      tok = l.takeWhile p ∧ post = l.dropWhile p := by
  intro tok
  induction tok with
  | nil =>
    intro l post hl _ hpost
    subst hl
    rcases hpost with rfl | ⟨w, r, rfl, hw⟩
    · exact ⟨rfl, rfl⟩
    · simp [List.takeWhile, List.dropWhile, hw]
  | cons t ts ih =>
    intro l post hl htok hpost
    subst hl
    have ht : p t = true := htok t (List.mem_cons_self t ts)
    have hts : ∀ x ∈ ts, p x = true := fun x hx =>
      htok x (List.mem_cons_of_mem t hx)
    obtain ⟨h1, h2⟩ := ih (ts ++ post) post rfl hts hpost
    constructor
    · simpa [List.takeWhile, ht] using h1
    · simpa [List.dropWhile, ht] using h2

theorem scanSt_some_eq (sym : Char) :
    ∀ (c acc : List Char) (b : Bool),
      scanSt sym c (some acc) b =
        (match c.dropWhile (fun ch => !(isWS ch)) with
         | [] => [acc.reverse ++ c.takeWhile (fun ch => !(isWS ch))]
         | w :: rest2 =>
           (acc.reverse ++ c.takeWhile (fun ch => !(isWS ch))) ::
             scanSt sym rest2 none (w == ' ')) := by
  intro c
  induction c with
  | nil =>
    intro acc b
    simp [scanSt, List.dropWhile, List.takeWhile]
  | cons y ys ih =>
    intro acc b
    cases hy : isWS y
    · have h1 : scanSt sym (y :: ys) (some acc) b =
          scanSt sym ys (some (y :: acc)) false := by
        simp [scanSt, hy]
      have hd : List.dropWhile (fun ch => !(isWS ch)) (y :: ys) =
          List.dropWhile (fun ch => !(isWS ch)) ys := by
        simp [List.dropWhile, hy]
      have htk : List.takeWhile (fun ch => !(isWS ch)) (y :: ys) =
          y :: List.takeWhile (fun ch => !(isWS ch)) ys := by
        simp [List.takeWhile, hy]
      rw [h1, ih, hd, htk]
      cases hys : List.dropWhile (fun ch => !(isWS ch)) ys with
      | nil => simp
      | cons w rest2 => simp
    · have h1 : scanSt sym (y :: ys) (some acc) b =
          acc.reverse :: scanSt sym ys none (y == ' ') := by
        simp [scanSt, hy]
      have hd : List.dropWhile (fun ch => !(isWS ch)) (y :: ys) = y :: ys := by
        simp [List.dropWhile, hy]
      have htk : List.takeWhile (fun ch => !(isWS ch)) (y :: ys) = [] := by
        simp [List.takeWhile, hy]
      rw [h1, hd, htk]
      simp

theorem split_after_space (p : Char → Bool) (hsp : p ' ' = false) :
    ∀ (pre mid q : List Char), pre = q ++ [' '] →
      ∃ pre2 q2, pre = ((pre ++ mid).takeWhile p) ++ pre2 ∧
        (pre ++ mid).dropWhile p = pre2 ++ mid ∧ pre2 = q2 ++ [' '] := by
  intro pre
  induction pre with
  | nil =>
    intro mid q hq
    exact absurd hq.symm (by simp)
  | cons p0 pre1 ih =>
    intro mid q hq
    cases hp0 : p p0
    · refine ⟨p0 :: pre1, q, ?_, ?_, hq⟩
      · simp [List.takeWhile, hp0]
      · simp [List.dropWhile, hp0]
    · have hpre1 : ∃ q1, pre1 = q1 ++ [' '] := by
        cases q with
        | nil =>
          exfalso
          simp only [List.nil_append] at hq
          cases hq
          rw [hsp] at hp0
          cases hp0
        | cons a q1 =>
          simp only [List.cons_append, List.cons.injEq] at hq
          exact ⟨q1, hq.2⟩
      obtain ⟨q1, hq1⟩ := hpre1
      obtain ⟨pre2, q2, e1, e2, e3⟩ := ih mid q1 hq1
      refine ⟨pre2, q2, ?_, ?_, e3⟩
      · have ht : ((p0 :: pre1) ++ mid).takeWhile p =
            p0 :: ((pre1 ++ mid).takeWhile p) := by
          simp [List.takeWhile, hp0]
        rw [ht, List.cons_append, ← e1]
      · have hd : ((p0 :: pre1) ++ mid).dropWhile p = (pre1 ++ mid).dropWhile p := by
          simp [List.dropWhile, hp0]
        rw [hd, e2]

theorem tagOccursFrom_nil (sym : Char) (b : Bool) (tok : List Char) :
    ¬ tagOccursFrom sym b [] tok := by
  rintro ⟨_, _, pre, post, heq, _, _⟩
  exact absurd heq (by simp)

theorem scanSt_none_iff (sym : Char) (hsym : isWS sym = false) :
    ∀ (n : Nat) (c : List Char), c.length ≤ n →
      ∀ (canStart : Bool) (tok : List Char),
        (tok ∈ scanSt sym c none canStart ↔ tagOccursFrom sym canStart c tok) := by
  have hspace : (fun ch : Char => !(isWS ch)) ' ' = false := by decide
  intro n
  induction n with
  | zero =>
    intro c hc canStart tok
    have hcs : c = [] := List.length_eq_zero.mp (Nat.le_zero.mp hc)
    subst hcs
    constructor
    · intro h
      simp [scanSt] at h
    · exact fun h => absurd h (tagOccursFrom_nil sym canStart tok)
  | succ n ih =>
    intro c hc canStart tok
    cases c with
    | nil =>
      constructor
      · intro h
        simp [scanSt] at h
      · exact fun h => absurd h (tagOccursFrom_nil sym canStart tok)
    | cons x rest =>
      have hrest : rest.length ≤ n := Nat.le_of_succ_le_succ hc
      simp only [scanSt]
      split
      · -- the regex matches at this position
        rename_i hguard
        have hg2 := hguard
        rw [Bool.and_eq_true, Bool.and_eq_true] at hg2
        obtain ⟨⟨hcs, hxb⟩, hmr⟩ := hg2
        have hx : sym = x := (beq_iff_eq.mp hxb).symm
        subst hx
        subst hcs
        cases rest with
        | nil =>
          exfalso
          simpa using hmr
        | cons r rest1 =>
          have hr : isWS r = false := by simpa using hmr
          rw [scanSt_some_eq]
          have htd := List.takeWhile_append_dropWhile
            (fun ch : Char => !(isWS ch)) (r :: rest1)
          have hT : (r :: rest1).takeWhile (fun ch : Char => !(isWS ch)) =
              r :: rest1.takeWhile (fun ch : Char => !(isWS ch)) := by
            simp [List.takeWhile, hr]
          cases hD : (r :: rest1).dropWhile (fun ch : Char => !(isWS ch)) with
          | nil =>
            rw [hD] at htd
            simp only [List.append_nil] at htd
            have hall := dropWhile_eq_nil_all _ _ hD
            simp only [List.reverse_nil, List.nil_append, List.mem_singleton]
            constructor
            · rintro rfl
              refine ⟨by rw [htd]; exact List.cons_ne_nil r rest1, ?_, [], [], ?_,
                Or.inl ⟨rfl, rfl⟩, Or.inl rfl⟩
              · intro ch hch
                have := hall ch (by rw [← htd]; exact hch)
                simpa using this
              · rw [htd]
                simp
            · rintro ⟨hne, hnw, pre, post, heq, hpre, hpost⟩
              rcases hpre with ⟨rfl, _⟩ | ⟨q, rfl⟩
              · simp only [List.nil_append, List.cons.injEq] at heq
                have hres := heq.2
                have hpost2 : post = [] ∨ ∃ w pr, post = w :: pr ∧
                    (fun ch : Char => !(isWS ch)) w = false := by
                  rcases hpost with rfl | ⟨w, pr, rfl, hw⟩
                  · exact Or.inl rfl
                  · exact Or.inr ⟨w, pr, rfl, by simp [hw]⟩
                obtain ⟨h1, _⟩ := takeWhile_unique
                  (fun ch : Char => !(isWS ch)) tok (r :: rest1) post
                  hres (fun ch hch => by simp [hnw ch hch]) hpost2
                exact h1
              · exfalso
                cases q with
                | nil =>
                  simp only [List.nil_append, List.cons_append, List.cons.injEq] at heq
                  have hsp : sym = ' ' := heq.1
                  rw [hsp] at hsym
                  cases hsym
                | cons a q1 =>
                  simp only [List.cons_append, List.cons.injEq] at heq
                  have hres := heq.2
                  have hmem : ' ' ∈ r :: rest1 := by
                    rw [hres]
                    simp
                  have := hall ' ' hmem
                  exact absurd this (by decide)
          | cons w rest2 =>
            rw [hD] at htd
            have hw : isWS w = true := by
              have := dropWhile_head_false _ _ _ _ hD
              simpa using this
            have hlen : rest2.length ≤ n := by
              have := congrArg List.length htd
              simp only [List.length_append, List.length_cons] at this
              simp only [List.length_cons] at hrest
              omega
            have IH := ih rest2 hlen (w == ' ')
            simp only [List.reverse_nil, List.nil_append, List.mem_cons]
            constructor
            · rintro (rfl | hmem)
              · refine ⟨by rw [hT]; exact List.cons_ne_nil _ _, ?_, [], w :: rest2, ?_,
                  Or.inl ⟨rfl, rfl⟩, Or.inr ⟨w, rest2, rfl, hw⟩⟩
                · intro ch hch
                  have := List.mem_takeWhile_imp hch
                  simpa using this
                · rw [htd]
                  simp
              · obtain ⟨hne, hnw, pre3, post, heq3, hpre3, hpost3⟩ := (IH tok).mp hmem
                refine ⟨hne, hnw,
                  sym :: ((r :: rest1).takeWhile (fun ch : Char => !(isWS ch)) ++
                    w :: pre3),
                  post, ?_, ?_, hpost3⟩
                · have hc2 : sym :: r :: rest1 =
                      sym :: ((r :: rest1).takeWhile (fun ch : Char => !(isWS ch)) ++
                        w :: rest2) := by
                    rw [htd]
                  rw [hc2, heq3]
                  simp
                · rcases hpre3 with ⟨rfl, hw2⟩ | ⟨q3, rfl⟩
                  · have hwsp : w = ' ' := by simpa using hw2
                    subst hwsp
                    exact Or.inr ⟨sym :: (r :: rest1).takeWhile
                      (fun ch : Char => !(isWS ch)), by simp⟩
                  · exact Or.inr ⟨sym :: ((r :: rest1).takeWhile
                      (fun ch : Char => !(isWS ch)) ++ w :: q3), by simp⟩
            · rintro ⟨hne, hnw, pre, post, heq, hpre, hpost⟩
              rcases hpre with ⟨rfl, _⟩ | ⟨q, rfl⟩
              · simp only [List.nil_append, List.cons.injEq] at heq
                have hres := heq.2
                have hpost2 : post = [] ∨ ∃ w2 pr, post = w2 :: pr ∧
                    (fun ch : Char => !(isWS ch)) w2 = false := by
                  rcases hpost with rfl | ⟨w2, pr, rfl, hw2⟩
                  · exact Or.inl rfl
                  · exact Or.inr ⟨w2, pr, rfl, by simp [hw2]⟩
                obtain ⟨h1, _⟩ := takeWhile_unique
                  (fun ch : Char => !(isWS ch)) tok (r :: rest1) post
                  hres (fun ch hch => by simp [hnw ch hch]) hpost2
                exact Or.inl h1
              · cases q with
                | nil =>
                  exfalso
                  simp only [List.nil_append, List.cons_append, List.cons.injEq] at heq
                  have hsp : sym = ' ' := heq.1
                  rw [hsp] at hsym
                  cases hsym
                | cons a q1 =>
                  simp only [List.cons_append, List.cons.injEq] at heq
                  have hres : r :: rest1 = (q1 ++ [' ']) ++ (sym :: (tok ++ post)) :=
                    heq.2
                  obtain ⟨pre2, q2, _, e2, e3⟩ := split_after_space
                    (fun ch : Char => !(isWS ch)) hspace
                    (q1 ++ [' ']) (sym :: (tok ++ post)) q1 rfl
                  rw [← hres] at e2
                  rw [hD] at e2
                  cases pre2 with
                  | nil =>
                    exfalso
                    exact absurd e3.symm (by simp)
                  | cons pw pre3 =>
                    simp only [List.cons_append, List.cons.injEq] at e2
                    obtain ⟨rfl, hrest2⟩ := e2
                    refine Or.inr ((IH tok).mpr
                      ⟨hne, hnw, pre3, post, hrest2, ?_, hpost⟩)
                    cases pre3 with
                    | nil =>
                      cases q2 with
                      | nil =>
                        have hpw : w = ' ' := by simpa using e3
                        exact Or.inl ⟨rfl, by simp [hpw]⟩
                      | cons b q2t =>
                        exfalso
                        simp at e3
                    | cons p3 pre4 =>
                      cases q2 with
                      | nil =>
                        exfalso
                        simp at e3
                      | cons b q2t =>
                        simp only [List.cons_append, List.cons.injEq] at e3
                        exact Or.inr ⟨q2t, e3.2⟩
      · -- no match at this position: one character is consumed
        rename_i hguard
        rw [ih rest hrest (x == ' ') tok]
        constructor
        · rintro ⟨hne, hnw, pre3, post, heq3, hpre3, hpost3⟩
          refine ⟨hne, hnw, x :: pre3, post, by simp [heq3], ?_, hpost3⟩
          rcases hpre3 with ⟨rfl, hx2⟩ | ⟨q3, rfl⟩
          · have hxsp : x = ' ' := by simpa using hx2
            subst hxsp
            exact Or.inr ⟨[], by simp⟩
          · exact Or.inr ⟨x :: q3, by simp⟩
        · rintro ⟨hne, hnw, pre, post, heq, hpre, hpost⟩
          rcases hpre with ⟨rfl, hcs⟩ | ⟨q, rfl⟩
          · exfalso
            simp only [List.nil_append, List.cons.injEq] at heq
            obtain ⟨hxs, hres⟩ := heq
            subst hres
            apply hguard
            rw [hcs, hxs]
            cases tok with
            | nil => exact absurd rfl hne
            | cons t0 ts =>
              simp [hnw t0 (List.mem_cons_self t0 ts)]
          · cases q with
            | nil =>
              simp only [List.nil_append, List.cons_append, List.cons.injEq] at heq
              obtain ⟨rfl, hres⟩ := heq
              refine ⟨hne, hnw, [], post, hres, Or.inl ⟨rfl, by simp⟩, hpost⟩
            | cons a q1 =>
              simp only [List.cons_append, List.cons.injEq] at heq
              obtain ⟨rfl, hres⟩ := heq
              exact ⟨hne, hnw, q1 ++ [' '], post, hres, Or.inr ⟨q1, rfl⟩, hpost⟩

theorem scanTags_iff (sym : Char) (hsym : isWS sym = false)
    (c tok : List Char) : tok ∈ scanTags sym c ↔ tagOccurs sym c tok :=
  scanSt_none_iff sym hsym c.length c le_rfl true tok

theorem lexLe_total (a b : List Char) : lexLe a b = true ∨ lexLe b a = true := by
  unfold lexLe
  cases h : lexLt b a
  · left
    rfl
  · right
    rw [lexLt_asymm b a h]
    rfl

theorem lexLe_trans (a b c : List Char) (h1 : lexLe a b = true)
    (h2 : lexLe b c = true) : lexLe a c = true := by
  unfold lexLe at h1 h2 ⊢
  simp only [Bool.not_eq_true'] at h1 h2 ⊢
  by_contra hx
  rw [Bool.not_eq_false] at hx
  cases hbc : lexLt b c
  · have hbe := lexLt_connex b c hbc h2
    subst hbe
    rw [hx] at h1
    cases h1
  · have := lexLt_trans b c a hbc hx
    rw [this] at h1
    cases h1

theorem lexLe_ne_lt (a b : List Char) (h1 : lexLe a b = true) (h2 : a ≠ b) :
    lexLt a b = true := by
  unfold lexLe at h1
  simp only [Bool.not_eq_true'] at h1
  cases hab : lexLt a b
  · exact absurd (lexLt_connex a b hab h1) h2
  · rfl

theorem mem_insertSorted (a x : List Char) :
    ∀ l, x ∈ insertSorted a l ↔ x = a ∨ x ∈ l := by
  intro l
  induction l with
  | nil => simp [insertSorted]
  | cons b rest ih =>
    simp only [insertSorted]
    split
    · simp [List.mem_cons]
    · simp only [List.mem_cons, ih]
      tauto

theorem mem_sortTags (x : List Char) : ∀ l, x ∈ sortTags l ↔ x ∈ l := by
  intro l
  induction l with
  | nil => simp [sortTags]
  | cons a rest ih =>
    simp only [sortTags, mem_insertSorted, ih, List.mem_cons]

theorem mem_dedupConsec (x : List Char) :
    ∀ l, x ∈ dedupConsec l ↔ x ∈ l := by
  intro l
  induction l with
  | nil => simp [dedupConsec]
  | cons a rest ih =>
    cases rest with
    | nil => simp [dedupConsec]
    | cons b rest2 =>
      simp only [dedupConsec]
      split
      · rename_i hab
        subst hab
        rw [ih]
        simp [List.mem_cons]
      · simp only [List.mem_cons, ih]

theorem pairwise_insertSorted (a : List Char) :
    ∀ l, List.Pairwise (fun u v => lexLe u v = true) l →
      List.Pairwise (fun u v => lexLe u v = true) (insertSorted a l) := by
  intro l
  induction l with
  | nil =>
    intro _
    simp [insertSorted]
  | cons b rest ih =>
    intro hp
    rw [List.pairwise_cons] at hp
    obtain ⟨hb, hrest⟩ := hp
    simp only [insertSorted]
    split
    · rename_i hab
      rw [List.pairwise_cons]
      constructor
      · intro x hx
        rcases List.mem_cons.1 hx with rfl | hx
        · exact hab
        · exact lexLe_trans a b x hab (hb x hx)
      · rw [List.pairwise_cons]
        exact ⟨hb, hrest⟩
    · rename_i hab
      have hba : lexLe b a = true := by
        rcases lexLe_total a b with h | h
        · exact absurd h hab
        · exact h
      rw [List.pairwise_cons]
      constructor
      · intro x hx
        rcases (mem_insertSorted a x rest).1 hx with rfl | hx
        · exact hba
        · exact hb x hx
      · exact ih hrest

theorem pairwise_sortTags :
    ∀ l, List.Pairwise (fun u v => lexLe u v = true) (sortTags l) := by
  intro l
  induction l with
  | nil => simp [sortTags]
  | cons a rest ih => exact pairwise_insertSorted a (sortTags rest) ih

theorem chain_lt_dedupConsec :
    ∀ l, List.Pairwise (fun u v => lexLe u v = true) l →
      List.Chain' (fun u v => lexLt u v = true) (dedupConsec l) := by
  intro l
  induction l with
  | nil =>
    intro _
    simp [dedupConsec]
  | cons a rest ih =>
    intro hp
    cases rest with
    | nil => simp [dedupConsec]
    | cons b rest2 =>
      rw [List.pairwise_cons] at hp
      obtain ⟨ha, hrest⟩ := hp
      simp only [dedupConsec]
      split
      · rename_i hab
        subst hab
        exact ih hrest
      · rename_i hab
        have hhead : ∃ t, dedupConsec (b :: rest2) = b :: t := by
          clear ih hrest ha
          induction rest2 with
          | nil => exact ⟨[], rfl⟩
          | cons c r3 ih2 =>
            simp only [dedupConsec]
            split
            · rename_i hbc
              subst hbc
              exact ih2
            · exact ⟨dedupConsec (c :: r3), rfl⟩
        obtain ⟨tl, htl⟩ := hhead
        rw [htl]
        rw [List.chain'_cons]
        constructor
        · exact lexLe_ne_lt a b (ha b (List.mem_cons_self b rest2)) hab
        · rw [← htl]
          exact ih hrest

theorem extractTagsFrom_iff (sym : Char) (hsym : isWS sym = false)
    (c tok : List Char) :
    tok ∈ extractTagsFrom sym c ↔ tagOccurs sym c tok := by
  unfold extractTagsFrom
  rw [mem_dedupConsec, mem_sortTags]
  exact scanTags_iff sym hsym c tok

theorem extractTagsFrom_sorted (sym : Char) (c : List Char) :
    List.Chain' (fun u v => lexLt u v = true) (extractTagsFrom sym c) :=
  chain_lt_dedupConsec _ (pairwise_sortTags _)

theorem from_todotxt_ok_shape (td : Date) (s : List Char) (u : Task)
    (h : from_todotxt td s = .ok u) : ∃ t0 cs, u = finishContent t0 cs := by
  have hn : '\n' ∉ s := by
    intro hnn
    unfold from_todotxt at h
    rw [if_pos hnn] at h
    cases h
  rcases h1 : matchDateTok (matchPriority (matchCompletion s).2).2 with _ | ⟨tok1, r3⟩
  · rw [from_todotxt_eq_zero_dates td s hn _ _ rfl _ _ rfl h1] at h
    injection h with h2
    exact ⟨_, _, h2.symm⟩
  · rcases h2 : matchDateTok r3 with _ | ⟨tok2, r4⟩
    · rcases h3 : chronoParseDateSp tok1 with _ | d1
      · rw [from_todotxt_one_date_panic td s hn _ _ rfl _ _ rfl _ _ h1 h2 h3] at h
        cases h
      · rw [from_todotxt_eq_one_date td s hn _ _ rfl _ _ rfl _ _ h1 h2 _ h3] at h
        injection h with h4
        exact ⟨_, _, h4.symm⟩
    · rcases h3 : chronoParseDateSp tok2 with _ | d2
      · rw [from_todotxt_two_dates_panic_crea td s hn _ _ rfl _ _ rfl
          _ _ h1 _ _ h2 h3] at h
        cases h
      · rcases h4 : chronoParseDateSp tok1 with _ | d1
        · rw [from_todotxt_two_dates_panic_comp td s hn _ _ rfl _ _ rfl
            _ _ h1 _ _ h2 _ h3 h4] at h
          cases h
        · rw [from_todotxt_eq_two_dates td s hn _ _ rfl _ _ rfl
            _ _ h1 _ _ h2 _ h3 _ h4] at h
          injection h with h5
          exact ⟨_, _, h5.symm⟩

theorem finishContent_tags (t : Task) (cs : List Char) :
    (finishContent t cs).project_tags =
        extractTagsFrom '+' (finishContent t cs).content ∧
      (finishContent t cs).context_tags =
        extractTagsFrom '@' (finishContent t cs).content := by
  simp only [finishContent, Task.set_content]
  split <;> exact ⟨rfl, rfl⟩

/-- C7: tag derivation is a pure function of the current content: after
set_content (regardless of the prior state of the task, stated by the
first two equations) and after parsing, the project tags are exactly the
(strictly sorted, hence deduplicated) list of tokens tok such that +tok
occurs in the content with the plus preceded by the start of the string or
a space and tok a maximal run of non-whitespace characters, and likewise
the context tags with the at sign. -/
theorem c7_tag_derivation_purity (t : Task) (c : List Char) :
    ((t.set_content c).project_tags = extractTagsFrom '+' c ∧
      (t.set_content c).context_tags = extractTagsFrom '@' c) ∧
    (∀ tok, tok ∈ (t.set_content c).project_tags ↔ tagOccurs '+' c tok) ∧
    (∀ tok, tok ∈ (t.set_content c).context_tags ↔ tagOccurs '@' c tok) ∧
    List.Chain' (fun u v => lexLt u v = true) (t.set_content c).project_tags ∧
    List.Chain' (fun u v => lexLt u v = true) (t.set_content c).context_tags ∧
    (∀ (td : Date) (s : List Char) (u : Task), from_todotxt td s = .ok u →
      (∀ tok, tok ∈ u.project_tags ↔ tagOccurs '+' u.content tok) ∧
      (∀ tok, tok ∈ u.context_tags ↔ tagOccurs '@' u.content tok)) := by
  refine ⟨⟨rfl, rfl⟩, ?_, ?_, ?_, ?_, ?_⟩
  · exact fun tok => extractTagsFrom_iff '+' (by decide) c tok
  · exact fun tok => extractTagsFrom_iff '@' (by decide) c tok
  · exact extractTagsFrom_sorted '+' c
  · exact extractTagsFrom_sorted '@' c
  · intro td s u h
    obtain ⟨t0, cs, rfl⟩ := from_todotxt_ok_shape td s u h
    obtain ⟨hp, hc⟩ := finishContent_tags t0 cs
    constructor
    · intro tok
      rw [hp]
      exact extractTagsFrom_iff '+' (by decide) _ tok
    · intro tok
      rw [hc]
      exact extractTagsFrom_iff '@' (by decide) _ tok

/-- C7 (witness): on the content "x +b +a ++c", the project tags hold
exactly the occurrence "a", obtained through the characterization. -/
theorem c7_tag_derivation_purity_witness :
    tagOccurs '+' ("x +b +a ++c".toList) ("a".toList) :=
  ((c7_tag_derivation_purity Task.empty ("x +b +a ++c".toList)).2.1
    ("a".toList)).mp (by decide)

theorem digitChar_ne_x (n : Nat) : digitChar n ≠ 'x' := by
  unfold digitChar
  split <;> decide

theorem digitChar_ne_paren (n : Nat) : digitChar n ≠ '(' := by
  unfold digitChar
  split <;> decide

theorem newline_not_in_formatDate (d : Date) : '\n' ∉ formatDate d := by
  intro h
  simp only [formatDate, fmt4, fmt2, List.cons_append, List.nil_append,
    List.mem_cons, List.not_mem_nil, or_false] at h
  rcases h with h | h | h | h | h | h | h | h | h | h <;>
    first
      | exact digitChar_ne_newline _ h.symm
      | exact absurd h (by decide)

theorem formatDate_no_space (d : Date) : ' ' ∉ formatDate d := by
  intro h
  simp only [formatDate, fmt4, fmt2, List.cons_append, List.nil_append,
    List.mem_cons, List.not_mem_nil, or_false] at h
  rcases h with h | h | h | h | h | h | h | h | h | h <;>
    first
      | exact digitChar_ne_space _ h.symm
      | exact absurd h (by decide)

theorem formatDate_ne_nil (d : Date) : formatDate d ≠ [] := by
  simp [formatDate, fmt4]

theorem okTagChar_dash : okTagChar '-' = true := by decide

theorem formatDate_all_okTag (d : Date) : (formatDate d).all okTagChar = true := by
  simp [formatDate, fmt4, fmt2, digitChar_ok_tag, okTagChar_dash]

theorem daysInMonth_le_31 (y m : Nat) : daysInMonth y m ≤ 31 := by
  unfold daysInMonth
  split
  · split <;> omega
  · split <;> omega

theorem matchCompletion_format (d : Date) (rest : List Char) :
    matchCompletion (formatDate d ++ ' ' :: rest) =
      (false, formatDate d ++ ' ' :: rest) := by
  apply matchCompletion_of_not
  intro r hr
  simp only [formatDate, fmt4, fmt2, List.cons_append] at hr
  injection hr with h1 _
  exact digitChar_ne_x _ h1

theorem matchPriority_format (d : Date) (rest : List Char) :
    matchPriority (formatDate d ++ ' ' :: rest) =
      (none, formatDate d ++ ' ' :: rest) := by
  apply matchPriority_of_not
  intro c r hr
  simp only [formatDate, fmt4, fmt2, List.cons_append] at hr
  injection hr with h1 _
  exact digitChar_ne_paren _ h1

theorem matchDateTok_format (d : Date) (rest : List Char) :
    matchDateTok (formatDate d ++ ' ' :: rest) =
      some (formatDate d ++ [' '], rest) := by
  simp only [formatDate, fmt4, fmt2, List.cons_append, List.nil_append]
  simp [matchDateTok, digitChar_isNd]

theorem chronoParseDateSp_format (d : Date) (h : d.valid4) :
    chronoParseDateSp (formatDate d ++ [' ']) = some d := by
  obtain ⟨h1, h2, h3, h4, h5⟩ := h
  have e9 : ∀ n : Nat, n % 10 < 10 := fun n => Nat.mod_lt _ (by omega)
  simp only [formatDate, fmt4, fmt2, List.cons_append, List.nil_append]
  simp only [chronoParseDateSp, digitChar_isDigit, Bool.and_self, if_true]
  rw [digitVal_digitChar _ (e9 _), digitVal_digitChar _ (e9 _),
    digitVal_digitChar _ (e9 _), digitVal_digitChar _ (e9 _),
    digitVal_digitChar _ (e9 _), digitVal_digitChar _ (e9 _),
    digitVal_digitChar _ (e9 _), digitVal_digitChar _ (e9 _)]
  have ey : 1000 * (d.year / 1000 % 10) + 100 * (d.year / 100 % 10) +
      10 * (d.year / 10 % 10) + d.year % 10 = d.year := by omega
  have em : 10 * (d.month / 10 % 10) + d.month % 10 = d.month := by omega
  have ed : 10 * (d.day / 10 % 10) + d.day % 10 = d.day := by
    have h31 := daysInMonth_le_31 d.year d.month
    omega
  rw [ey, em, ed, if_pos ⟨h1, h2, h3, h4⟩]

theorem parseDueStr_format (d : Date) (h : d.valid4) :
    parseDueStr (formatDate d) = some d := by
  obtain ⟨h1, h2, h3, h4, h5⟩ := h
  have e9 : ∀ n : Nat, n % 10 < 10 := fun n => Nat.mod_lt _ (by omega)
  simp only [formatDate, fmt4, fmt2, List.cons_append, List.nil_append]
  simp only [parseDueStr, digitChar_isDigit, Bool.and_self, if_true]
  rw [digitVal_digitChar _ (e9 _), digitVal_digitChar _ (e9 _),
    digitVal_digitChar _ (e9 _), digitVal_digitChar _ (e9 _),
    digitVal_digitChar _ (e9 _), digitVal_digitChar _ (e9 _),
    digitVal_digitChar _ (e9 _), digitVal_digitChar _ (e9 _)]
  have ey : 1000 * (d.year / 1000 % 10) + 100 * (d.year / 100 % 10) +
      10 * (d.year / 10 % 10) + d.year % 10 = d.year := by omega
  have em : 10 * (d.month / 10 % 10) + d.month % 10 = d.month := by omega
  have ed : 10 * (d.day / 10 % 10) + d.day % 10 = d.day := by
    have h31 := daysInMonth_le_31 d.year d.month
    omega
  rw [ey, em, ed, if_pos ⟨h1, h2, h3, h4⟩]

theorem splitSp_append (w : List Char) :
    ∀ (u acc : List Char),
      splitSp acc (u ++ ' ' :: w) = splitSp acc u ++ splitSp [] w := by
  intro u
  induction u with
  | nil =>
    intro acc
    simp [splitSp]
  | cons c rest ih =>
    intro acc
    by_cases hc : c = ' '
    · subst hc
      simp only [List.cons_append, splitSp, eq_self_iff_true, if_true,
        List.append_eq]
      rw [ih []]
    · simp only [List.cons_append, splitSp, if_neg hc, List.append_eq]
      exact ih (c :: acc)

theorem splitSp_no_space (u : List Char) (h : ' ' ∉ u) :
    ∀ acc, splitSp acc u = [acc.reverse ++ u] := by
  induction u with
  | nil =>
    intro acc
    simp [splitSp]
  | cons c rest ih =>
    intro acc
    have hc : c ≠ ' ' := fun hc => h (hc ▸ List.mem_cons_self c rest)
    have hr : ' ' ∉ rest := fun hm => h (List.mem_cons_of_mem c hm)
    simp only [splitSp, if_neg hc]
    rw [ih hr (c :: acc)]
    simp

theorem splitSp_ne_nil (u : List Char) : ∀ acc, splitSp acc u ≠ [] := by
  induction u with
  | nil =>
    intro acc
    simp [splitSp]
  | cons c rest ih =>
    intro acc
    simp only [splitSp]
    split
    · simp
    · exact ih (c :: acc)

theorem mapValidKV_none_append (v : List (List Char)) :
    ∀ u, mapValidKV u = none → mapValidKV (u ++ v) = none := by
  intro u
  induction u with
  | nil =>
    intro h
    cases h
  | cons t ts ih =>
    intro h
    simp only [mapValidKV, List.cons_append, List.append_eq] at h ⊢
    cases hv : validKV t with
    | none => rfl
    | some kv =>
      rw [hv] at h
      cases hts : mapValidKV ts with
      | none => rw [ih hts]
      | some kvs =>
        rw [hts] at h
        cases h

theorem mapValidKV_some_nil (l : List (List Char))
    (h : mapValidKV l = some []) : l = [] := by
  cases l with
  | nil => rfl
  | cons t ts =>
    simp only [mapValidKV] at h
    cases hv : validKV t with
    | none =>
      rw [hv] at h
      cases h
    | some kv =>
      rw [hv] at h
      cases hts : mapValidKV ts with
      | none =>
        rw [hts] at h
        cases h
      | some kvs =>
        rw [hts] at h
        injection h with h2
        cases h2

theorem parseBlocks_ne_some_nil (s : List Char) : parseBlocks s ≠ some [] := by
  intro h
  unfold parseBlocks at h
  split at h
  · rename_i rest
    exact splitSp_ne_nil rest [] (mapValidKV_some_nil _ h)
  · cases h

theorem tagSplitGo_append (w : List Char) (kvs : List (List Char × List Char))
    (hw : parseBlocks (' ' :: w) = some kvs) :
    ∀ (c acc : List Char), tagSplitGo acc c = (acc.reverse ++ c, []) →
      tagSplitGo acc (c ++ ' ' :: w) = (acc.reverse ++ c, kvs) := by
  intro c
  induction c with
  | nil =>
    intro acc _
    simp only [List.nil_append, List.append_nil]
    simp [tagSplitGo, hw]
  | cons ch rest ih =>
    intro acc h
    unfold tagSplitGo at h
    cases hp : parseBlocks (ch :: rest) with
    | some kvs0 =>
      rw [hp] at h
      injection h with h1 h2
      subst h2
      exact absurd hp (parseBlocks_ne_some_nil _)
    | none =>
      rw [hp] at h
      have h3 : tagSplitGo (ch :: acc) rest = (acc.reverse ++ ch :: rest, []) := h
      have h2 : tagSplitGo (ch :: acc) rest = ((ch :: acc).reverse ++ rest, []) := by
        rw [h3]
        simp
      have hnp : parseBlocks (ch :: (rest ++ ' ' :: w)) = none := by
        by_cases hc : ch = ' '
        · subst hc
          have hp2 : mapValidKV (splitSp [] rest) = none := by
            simpa [parseBlocks] using hp
          simp only [parseBlocks]
          rw [splitSp_append w rest []]
          exact mapValidKV_none_append _ _ hp2
        · exact parseBlocks_of_ne_space ch _ hc
      rw [List.cons_append]
      unfold tagSplitGo
      rw [hnp]
      simpa using ih (ch :: acc) h2

theorem tagSplit_append (c w : List Char) (kvs : List (List Char × List Char))
    (hc : tagSplit c = (c, [])) (hw : parseBlocks (' ' :: w) = some kvs) :
    tagSplit (c ++ ' ' :: w) = (c, kvs) := by
  have h0 : tagSplitGo [] c = (List.reverse [] ++ c, []) := by simpa [tagSplit] using hc
  simpa [tagSplit] using tagSplitGo_append w kvs hw c [] h0

theorem validKV_due (v : List Char) (hv : v ≠ []) (hva : v.all okTagChar = true) :
    validKV ("due".toList ++ ':' :: v) = some ("due".toList, v) := by
  have hd : "due".toList = ['d', 'u', 'e'] := by decide
  rw [hd]
  simp only [validKV, List.cons_append, List.nil_append, List.takeWhile_cons,
    List.dropWhile_cons]
  have h1 : okTagChar 'd' = true := by decide
  have h2 : okTagChar 'u' = true := by decide
  have h3 : okTagChar 'e' = true := by decide
  have h4 : okTagChar ':' = false := by decide
  simp only [h1, h2, h3, h4, if_true, if_false, List.takeWhile_nil,
    Bool.false_eq_true, List.dropWhile_nil]
  rw [if_pos ⟨by simp, hv, hva⟩]

theorem parseBlocks_due (d : Date) :
    parseBlocks (' ' :: ("due".toList ++ ':' :: formatDate d)) =
      some [("due".toList, formatDate d)] := by
  have hns : ' ' ∉ ("due".toList ++ ':' :: formatDate d) := by
    intro h
    rcases List.mem_append.mp h with h | h
    · revert h
      decide
    · rcases List.mem_cons.mp h with h | h
      · exact absurd h (by decide)
      · exact formatDate_no_space d h
  simp only [parseBlocks]
  rw [splitSp_no_space _ hns []]
  simp only [List.reverse_nil, List.nil_append, mapValidKV]
  rw [validKV_due (formatDate d) (formatDate_ne_nil d) (formatDate_all_okTag d)]

theorem finishContent_content_custom (t0 : Task) (cs content : List Char)
    (kvs : List (List Char × List Char)) (h : tagSplit cs = (content, kvs)) :
    (finishContent t0 cs).content = content ∧
      (finishContent t0 cs).custom_tags =
        kvs.foldl (fun m kv => insertKV m kv.1 kv.2) t0.custom_tags := by
  simp only [finishContent, Task.set_content, h]
  split <;> exact ⟨rfl, rfl⟩

theorem good_init (due0 : Option Date) (c0 : List Char) (today : Date)
    (ht : today.valid4)
    (hd : ∀ d, due0 = some d → d.valid4) :
    GoodTask (mkInit due0 c0 today) := by
  cases due0 with
  | none =>
    refine ⟨rfl, ⟨today, rfl, ht⟩, fun _ => rfl, ?_, rfl⟩
    intro h
    exact Bool.noConfusion h
  | some d1 =>
    refine ⟨rfl, ⟨today, rfl, ht⟩, fun _ => rfl, ?_, ?_⟩
    · intro h
      exact Bool.noConfusion h
    · exact ⟨hd d1 rfl, rfl⟩

theorem good_step (t : Task) (a : Act) (hv : a.valid4) (hg : GoodTask t) :
    GoodTask (applyAct t a) := by
  obtain ⟨hp, ⟨cd, hcd, hcdv⟩, hc0, hc1, hdue⟩ := hg
  cases a with
  | setContent c =>
    exact ⟨hp, ⟨cd, hcd, hcdv⟩, hc0, hc1, hdue⟩
  | setDue dOpt =>
    cases dOpt with
    | none =>
      refine ⟨hp, ⟨cd, hcd, hcdv⟩, hc0, hc1, ?_⟩
      show removeKV t.custom_tags ("due".toList) = []
      cases ht2 : t.duedate with
      | some d0 =>
        simp only [ht2] at hdue
        rw [hdue.2]
        simp [removeKV]
      | none =>
        simp only [ht2] at hdue
        rw [hdue]
        rfl
    | some d1 =>
      refine ⟨hp, ⟨cd, hcd, hcdv⟩, hc0, hc1, ?_⟩
      refine ⟨hv, ?_⟩
      show insertKV t.custom_tags ("due".toList) (formatDate d1) = _
      cases ht2 : t.duedate with
      | some d0 =>
        simp only [ht2] at hdue
        rw [hdue.2]
        simp [insertKV]
      | none =>
        simp only [ht2] at hdue
        rw [hdue]
        rfl
  | setCompleted td =>
    refine ⟨hp, ⟨cd, ?_, hcdv⟩, ?_, ?_, hdue⟩
    · show (match t.creation_date with | none => some td | some c => some c) = some cd
      rw [hcd]
    · intro h
      exact Bool.noConfusion h
    · intro _
      exact ⟨td, rfl, hv⟩
  | setNotCompleted =>
    refine ⟨hp, ⟨cd, hcd, hcdv⟩, fun _ => rfl, ?_, hdue⟩
    intro h
    exact Bool.noConfusion h

theorem good_applyActs :
    ∀ (acts : List Act), (∀ a ∈ acts, a.valid4) →
      ∀ t, GoodTask t → GoodTask (applyActs t acts) := by
  intro acts
  induction acts with
  | nil =>
    intro _ t h
    exact h
  | cons a rest ih =>
    intro hv t h
    exact ih (fun b hb => hv b (List.mem_cons_of_mem a hb)) _
      (good_step t a (hv a (List.mem_cons_self a rest)) h)

theorem matchCompletion_x2 (l : List Char) :
    matchCompletion ("x ".toList ++ l) = (true, l) := rfl

theorem c1_core (anyToday : Date) (t : Task)
    (kvs : List (List Char × List Char)) (suf : List Char)
    (hpri : t.priority = none)
    (cd : Date) (hcd : t.creation_date = some cd) (hcdv : cd.valid4)
    (hcomp : (t.completion = false ∧ t.completion_date = none) ∨
      (t.completion = true ∧ ∃ e, t.completion_date = some e ∧ e.valid4))
    (hsuf : t.custom_tags.foldl
      (fun acc kv => acc ++ ' ' :: (kv.1 ++ ':' :: kv.2)) [] = suf)
    (hsufnl : '\n' ∉ suf)
    (hnl : '\n' ∉ t.content)
    (hnd : matchDateTok (t.content ++ suf) = none)
    (htag : tagSplit (t.content ++ suf) = (t.content, kvs))
    (hkvs : kvs.foldl (fun m kv => insertKV m kv.1 kv.2) [] = t.custom_tags) :
    ∃ u, from_todotxt anyToday (to_todotxt t) = .ok u ∧
      u.completion = t.completion ∧
      u.priority = t.priority ∧
      u.completion_date = t.completion_date ∧
      u.creation_date = t.creation_date ∧
      u.content = t.content ∧
      ∀ k, lookupKV u.custom_tags k = lookupKV t.custom_tags k := by
  rcases hcomp with ⟨hcf, hcdnone⟩ | ⟨hcf, e, hce, hev⟩
  · have hserial : to_todotxt t = formatDate cd ++ ' ' :: (t.content ++ suf) := by
      unfold to_todotxt
      rw [hpri, hcd, hcdnone, hcf, hsuf]
      simp
    have hn : '\n' ∉ to_todotxt t := by
      rw [hserial]
      intro h
      rcases List.mem_append.mp h with h | h
      · exact newline_not_in_formatDate cd h
      · rcases List.mem_cons.mp h with h | h
        · exact absurd h (by decide)
        · rcases List.mem_append.mp h with h | h
          · exact hnl h
          · exact hsufnl h
    have h1 : matchCompletion (to_todotxt t) =
        (false, formatDate cd ++ ' ' :: (t.content ++ suf)) := by
      rw [hserial]
      exact matchCompletion_format cd _
    have h2 := matchPriority_format cd (t.content ++ suf)
    have h3 := matchDateTok_format cd (t.content ++ suf)
    have h5 := chronoParseDateSp_format cd hcdv
    have hrun := from_todotxt_eq_one_date anyToday (to_todotxt t) hn
      false _ h1 none _ h2 _ _ h3 hnd cd h5
    refine ⟨_, hrun, ?_, ?_, ?_, ?_, ?_, ?_⟩
    · rw [finishContent_completion]
      exact hcf.symm
    · rw [finishContent_priority]
      exact hpri.symm
    · rw [finishContent_completion_date]
      exact hcdnone.symm
    · rw [finishContent_creation_date]
      exact hcd.symm
    · exact (finishContent_content_custom _ _ _ _ htag).1
    · intro k
      rw [(finishContent_content_custom _ _ _ _ htag).2]
      have hz : ({ Task.new [] anyToday with
          completion := false
          priority := none
          creation_date := some cd } : Task).custom_tags = [] := rfl
      rw [hz, hkvs]
  · have hserial : to_todotxt t = "x ".toList ++
        (formatDate e ++ ' ' :: (formatDate cd ++ ' ' :: (t.content ++ suf))) := by
      unfold to_todotxt
      rw [hpri, hcd, hce, hcf, hsuf]
      simp
    have hn : '\n' ∉ to_todotxt t := by
      rw [hserial]
      intro h
      rcases List.mem_append.mp h with h | h
      · revert h
        decide
      · rcases List.mem_append.mp h with h | h
        · exact newline_not_in_formatDate e h
        · rcases List.mem_cons.mp h with h | h
          · exact absurd h (by decide)
          · rcases List.mem_append.mp h with h | h
            · exact newline_not_in_formatDate cd h
            · rcases List.mem_cons.mp h with h | h
              · exact absurd h (by decide)
              · rcases List.mem_append.mp h with h | h
                · exact hnl h
                · exact hsufnl h
    have h1 : matchCompletion (to_todotxt t) =
        (true, formatDate e ++ ' ' :: (formatDate cd ++ ' ' :: (t.content ++ suf))) := by
      rw [hserial]
      exact matchCompletion_x2 _
    have h2 := matchPriority_format e (formatDate cd ++ ' ' :: (t.content ++ suf))
    have h3 := matchDateTok_format e (formatDate cd ++ ' ' :: (t.content ++ suf))
    have h4 := matchDateTok_format cd (t.content ++ suf)
    have h5 := chronoParseDateSp_format cd hcdv
    have h6 := chronoParseDateSp_format e hev
    have hrun := from_todotxt_eq_two_dates anyToday (to_todotxt t) hn
      true _ h1 none _ h2 _ _ h3 _ _ h4 cd h5 e h6
    refine ⟨_, hrun, ?_, ?_, ?_, ?_, ?_, ?_⟩
    · rw [finishContent_completion]
      exact hcf.symm
    · rw [finishContent_priority]
      exact hpri.symm
    · rw [finishContent_completion_date]
      exact hce.symm
    · rw [finishContent_creation_date]
      exact hcd.symm
    · exact (finishContent_content_custom _ _ _ _ htag).1
    · intro k
      rw [(finishContent_content_custom _ _ _ _ htag).2]
      have hz : ({ Task.new [] anyToday with
          completion := true
          priority := none
          creation_date := some cd
          completion_date := some e } : Task).custom_tags = [] := rfl
      rw [hz, hkvs]

/-- C1 (counterexample): for the Task built by new (creation date
2021-05-05) followed by set_content of the string "2021-01-01 b", parsing
the serialized line "2021-05-05 2021-01-01 b" does not reproduce the
Task: the content-leading date token is matched by the second date group,
so the parsed creation date becomes 2021-01-01 instead of 2021-05-05, the
parsed content becomes "b", and the parsed completion date becomes
2021-05-05 on a non-completed task. -/
theorem c1_round_trip_counterexample :
    from_todotxt { year := 2021, month := 5, day := 5 }
        (to_todotxt (applyActs
          (mkInit none ("a".toList) { year := 2021, month := 5, day := 5 })
          [Act.setContent ("2021-01-01 b".toList)])) =
      .ok { content := "b".toList
            duedate := none
            completion := false
            completion_date := some { year := 2021, month := 5, day := 5 }
            creation_date := some { year := 2021, month := 1, day := 1 }
            priority := none
            project_tags := []
            context_tags := []
            custom_tags := [] } ∧
    (applyActs (mkInit none ("a".toList) { year := 2021, month := 5, day := 5 })
        [Act.setContent ("2021-01-01 b".toList)]).creation_date =
      some { year := 2021, month := 5, day := 5 } ∧
    (applyActs (mkInit none ("a".toList) { year := 2021, month := 5, day := 5 })
        [Act.setContent ("2021-01-01 b".toList)]).content =
      "2021-01-01 b".toList ∧
    (applyActs (mkInit none ("a".toList) { year := 2021, month := 5, day := 5 })
        [Act.setContent ("2021-01-01 b".toList)]).completion_date = none := by
  decide

/-- C1 (amended round-trip): for every Task built by new or new_with_date
(valid dates) followed by setter calls with valid dates, whose final
content contains no newline, does not itself end in a key:value tag block,
and whose serialized tail (content plus the custom-tag block) does not
start with a date-shaped token, from_todotxt on to_todotxt returns Ok of a
Task with the same completion flag, priority, completion date, creation
date, content, and the same custom key:value associations (stated through
lookup, independent of tag order).  Without the date-shaped-token
hypothesis the claim fails (see the counterexample). -/
theorem c1_round_trip (today anyToday : Date) (due0 : Option Date)
    (c0 : List Char) (acts : List Act) (t : Task)
    (ht : t = applyActs (mkInit due0 c0 today) acts)
    (htoday : today.valid4)
    (hdue0 : ∀ d, due0 = some d → d.valid4)
    (hacts : ∀ a ∈ acts, a.valid4)
    (hnl : '\n' ∉ t.content)
    (hnd : matchDateTok (t.content ++ t.custom_tags.foldl
      (fun acc kv => acc ++ ' ' :: (kv.1 ++ ':' :: kv.2)) []) = none)
    (hts : tagSplit t.content = (t.content, [])) :
    ∃ u, from_todotxt anyToday (to_todotxt t) = .ok u ∧
      u.completion = t.completion ∧
      u.priority = t.priority ∧
      u.completion_date = t.completion_date ∧
      u.creation_date = t.creation_date ∧
      u.content = t.content ∧
      ∀ k, lookupKV u.custom_tags k = lookupKV t.custom_tags k := by
  have hG : GoodTask t :=
    ht ▸ good_applyActs acts hacts _ (good_init due0 c0 today htoday hdue0)
  obtain ⟨hpri, ⟨cd, hcd, hcdv⟩, hc0, hc1, hdue⟩ := hG
  have hcomp : (t.completion = false ∧ t.completion_date = none) ∨
      (t.completion = true ∧ ∃ e, t.completion_date = some e ∧ e.valid4) := by
    cases hcb : t.completion with
    | false => exact Or.inl ⟨rfl, hc0 hcb⟩
    | true => exact Or.inr ⟨rfl, hc1 hcb⟩
  cases ht2 : t.duedate with
  | none =>
    simp only [ht2] at hdue
    have hsuf : t.custom_tags.foldl
        (fun acc kv => acc ++ ' ' :: (kv.1 ++ ':' :: kv.2)) [] = [] := by
      rw [hdue]
      rfl
    rw [hsuf, List.append_nil] at hnd
    refine c1_core anyToday t [] [] hpri cd hcd hcdv hcomp hsuf
      (by simp) hnl (by simpa using hnd) (by simpa using hts) ?_
    exact hdue.symm
  | some d =>
    simp only [ht2] at hdue
    have hsuf : t.custom_tags.foldl
        (fun acc kv => acc ++ ' ' :: (kv.1 ++ ':' :: kv.2)) [] =
        ' ' :: ("due".toList ++ ':' :: formatDate d) := by
      rw [hdue.2]
      rfl
    rw [hsuf] at hnd
    have hsufnl : '\n' ∉ ' ' :: ("due".toList ++ ':' :: formatDate d) := by
      intro h
      rcases List.mem_cons.mp h with h | h
      · exact absurd h (by decide)
      · rcases List.mem_append.mp h with h | h
        · revert h
          decide
        · rcases List.mem_cons.mp h with h | h
          · exact absurd h (by decide)
          · exact newline_not_in_formatDate d h
    refine c1_core anyToday t [("due".toList, formatDate d)]
      (' ' :: ("due".toList ++ ':' :: formatDate d)) hpri cd hcd hcdv hcomp hsuf
      hsufnl hnl hnd
      (tagSplit_append t.content _ _ hts (parseBlocks_due d)) ?_
    rw [hdue.2]
    rfl

/-- C1 (witness): the amended round-trip applied to the Task built by
new_with_date (due 2022-03-04, created 2021-05-05, content "a") followed
by set_completed on 2021-06-07. -/
theorem c1_round_trip_witness :
    ∃ u, from_todotxt { year := 2021, month := 5, day := 5 }
        (to_todotxt (applyActs
          (mkInit (some { year := 2022, month := 3, day := 4 }) ("a".toList)
            { year := 2021, month := 5, day := 5 })
          [Act.setCompleted { year := 2021, month := 6, day := 7 }])) = .ok u ∧
      u.completion = (applyActs
          (mkInit (some { year := 2022, month := 3, day := 4 }) ("a".toList)
            { year := 2021, month := 5, day := 5 })
          [Act.setCompleted { year := 2021, month := 6, day := 7 }]).completion ∧
      u.priority = (applyActs
          (mkInit (some { year := 2022, month := 3, day := 4 }) ("a".toList)
            { year := 2021, month := 5, day := 5 })
          [Act.setCompleted { year := 2021, month := 6, day := 7 }]).priority ∧
      u.completion_date = (applyActs
          (mkInit (some { year := 2022, month := 3, day := 4 }) ("a".toList)
            { year := 2021, month := 5, day := 5 })
          [Act.setCompleted { year := 2021, month := 6, day := 7 }]).completion_date ∧
      u.creation_date = (applyActs
          (mkInit (some { year := 2022, month := 3, day := 4 }) ("a".toList)
            { year := 2021, month := 5, day := 5 })
          [Act.setCompleted { year := 2021, month := 6, day := 7 }]).creation_date ∧
      u.content = (applyActs
          (mkInit (some { year := 2022, month := 3, day := 4 }) ("a".toList)
            { year := 2021, month := 5, day := 5 })
          [Act.setCompleted { year := 2021, month := 6, day := 7 }]).content ∧
      ∀ k, lookupKV u.custom_tags k = lookupKV (applyActs
          (mkInit (some { year := 2022, month := 3, day := 4 }) ("a".toList)
            { year := 2021, month := 5, day := 5 })
          [Act.setCompleted { year := 2021, month := 6, day := 7 }]).custom_tags k :=
  c1_round_trip { year := 2021, month := 5, day := 5 }
    { year := 2021, month := 5, day := 5 }
    (some { year := 2022, month := 3, day := 4 }) ("a".toList)
    [Act.setCompleted { year := 2021, month := 6, day := 7 }] _ rfl
    (by decide)
    (by
      intro d hd
      injection hd with h2
      subst h2
      decide)
    (by
      intro a ha
      rw [List.mem_singleton] at ha
      subst ha
      exact (by decide : Date.valid4 { year := 2021, month := 6, day := 7 }))
    (by decide) (by decide) (by decide)

end RofiTodo
